import Mathlib

/-!
# Verification of the AI-AutoCoding-DAO orchestration core

Shallow embedding of the core pipeline of the repository
(`TokenTracker` from `src/App.tsx`, `TaskAnalyzer` from
`src/orchestration/analyzer.js` and `src/utils/validation.js`,
`fillTemplate` from `src/utils/template-builder.js`,
`QualityAnalyzer` from `src/evaluation/quality-analyzer.js`,
`ImplementationComparator` from `src/evaluation/comparator.js`,
`MetricsCollector` from `scripts/analyze.js`), together with proofs of the
behavioural properties stated in the specification.

Modelling conventions:
* JavaScript strings are `List Char`; `String.prototype.includes` is
  substring containment, `toLowerCase` is `Char.toLower` mapping
  (all concrete inputs are ASCII).
* JavaScript numbers that only ever hold integer token counts are `Nat`;
  derived ratios are `Rat` (every concrete computation proved here is exact,
  far from any binary-rounding boundary, so `Rat` agrees with IEEE doubles
  on these values).
* `Math.round` is `jsRound x = ⌊x + 1/2⌋`, which is equal to the
  JavaScript function on all non-negative arguments.
* JavaScript objects used as string-keyed records are association lists;
  `Map` objects are association lists as well.
-/

/-- JavaScript strings as lists of characters. -/
abbrev Str := List Char

/-- `String.prototype.includes`: `needle` occurs as a contiguous substring. -/
def containsStr (needle hay : Str) : Bool :=
  hay.tails.any (fun t => needle.isPrefixOf t)

/-- `String.prototype.toLowerCase` (ASCII). -/
def toLowerStr (s : Str) : Str := s.map Char.toLower

/-- `Math.round`: round half up. -/
def jsRound (x : ℚ) : ℤ := ⌊x + 1/2⌋

theorem jsRound_intCast (n : ℤ) : jsRound (n : ℚ) = n := by
  unfold jsRound
  refine Int.floor_eq_iff.mpr ⟨by linarith, by linarith⟩

/-- `containsStr` decides the `IsInfix` relation. -/
theorem containsStr_iff_infix (p s : Str) :
    containsStr p s = true ↔ p <:+: s := by
  unfold containsStr
  rw [List.any_eq_true]
  constructor
  · rintro ⟨t, ht, hp⟩
    rw [List.mem_tails] at ht
    rw [List.isPrefixOf_iff_prefix] at hp
    exact List.infix_iff_prefix_suffix.mpr ⟨t, hp, ht⟩
  · intro h
    obtain ⟨t, hp, ht⟩ := List.infix_iff_prefix_suffix.mp h
    exact ⟨t, (List.mem_tails t s).mpr ht, List.isPrefixOf_iff_prefix.mpr hp⟩

/-! ## TokenTracker (`src/App.tsx`)

Per-task state created by `startTask` and mutated by `recordDirectCost`,
`recordDelegatedCost`, `completeTask`; `compareEfficiency` derives the
efficiency report. -/

/-- The `task.delegated` record of the tracker. -/
structure Delegated where
  analysis : Nat
  delegation : Nat
  review : Nat
  total : Nat
  toolName : Option Str
  timeSpent : Nat
  deriving Repr, DecidableEq

/-- One `recordDelegatedCost` invocation: the tool name plus the
`{analysis, delegation, review, timeSpent}` cost object. -/
structure DelegatedCall where
  toolName : Str
  analysis : Nat
  delegation : Nat
  review : Nat
  timeSpent : Nat
  deriving Repr, DecidableEq

/-- `analysis + delegation + review`, as computed inside
`recordDelegatedCost`. -/
def callTotal (c : DelegatedCall) : Nat := c.analysis + c.delegation + c.review

/-- The per-task record created by `TokenTracker.startTask`. -/
structure TrackedTask where
  description : Str
  complexity : Str
  direct : Nat
  delegated : Delegated
  tools : List (Str × Delegated)
  completed : Bool
  deriving Repr, DecidableEq

/-- `TokenTracker.startTask`: fresh zeroed per-task record. -/
def startTaskRecord (description complexity : Str) : TrackedTask :=
  { description := description
    complexity := complexity
    direct := 0
    delegated := ⟨0, 0, 0, 0, none, 0⟩
    tools := []
    completed := false }

/-- `TokenTracker.recordDirectCost` restricted to the task's own record. -/
def recordDirectTask (t : TrackedTask) (tokens : Nat) : TrackedTask :=
  { t with direct := tokens }

/-- The `Delegated` record built from one call. -/
def delegatedOfCall (c : DelegatedCall) : Delegated :=
  ⟨c.analysis, c.delegation, c.review, callTotal c, some c.toolName, c.timeSpent⟩

/-- `TokenTracker.recordDelegatedCost` restricted to the task's own record:
records the per-tool entry and replaces `task.delegated` when
`!task.delegated.total || total < task.delegated.total`. -/
def recordDelegatedTask (t : TrackedTask) (c : DelegatedCall) : TrackedTask :=
  let total := callTotal c
  { t with
    tools := (c.toolName, delegatedOfCall c) :: (t.tools.filter (fun p => p.1 ≠ c.toolName))
    delegated :=
      if t.delegated.total = 0 ∨ total < t.delegated.total then delegatedOfCall c
      else t.delegated }

/-- The complexity weight table of `compareEfficiency`
(`{low: 0.8, medium: 1.0, high: 1.2}` with `|| 1.0` fallback). -/
def complexityWeight (s : Str) : ℚ :=
  if s = "low".toList then 8/10
  else if s = "medium".toList then 1
  else if s = "high".toList then 12/10
  else 1

/-- The numeric fields of the object returned by
`TokenTracker.compareEfficiency`. -/
structure EfficiencyReport where
  directCost : Nat
  delegatedTotal : Nat
  tokenSavings : ℤ
  efficiencyGain : ℚ
  normalizedEfficiency : ℚ
  bestTool : Option Str
  deriving Repr, DecidableEq

/-- `TokenTracker.compareEfficiency` on a task record. -/
def compareEfficiencyTask (t : TrackedTask) : EfficiencyReport :=
  let savings : ℤ := (t.direct : ℤ) - (t.delegated.total : ℤ)
  let efficiency : ℚ :=
    if 0 < t.direct then (((t.direct : ℚ) - (t.delegated.total : ℚ)) / (t.direct : ℚ)) * 100
    else 0
  let weight := complexityWeight t.complexity
  { directCost := t.direct
    delegatedTotal := t.delegated.total
    tokenSavings := savings
    efficiencyGain := efficiency
    normalizedEfficiency := efficiency * weight
    bestTool := t.delegated.toolName }

/-! Whole-tracker state: the `tasks` map keyed by task id. -/

/-- The `TokenTracker.tasks` map. -/
structure Tracker where
  tasks : List (Str × TrackedTask)
  deriving Repr, DecidableEq

/-- The empty tracker (constructor state). -/
def Tracker.init : Tracker := ⟨[]⟩

/-- Update the entry for a key of an association list, if present. -/
def updateAssoc (k : Str) (f : TrackedTask → TrackedTask) :
    List (Str × TrackedTask) → List (Str × TrackedTask)
  | [] => []
  | (k', v) :: rest =>
    if k' = k then (k', f v) :: rest else (k', v) :: updateAssoc k f rest

/-- `TokenTracker.startTask`. -/
def Tracker.startTask (tr : Tracker) (taskId description complexity : Str) : Tracker :=
  ⟨(taskId, startTaskRecord description complexity) ::
    tr.tasks.filter (fun p => p.1 ≠ taskId)⟩

/-- `TokenTracker.recordDirectCost` (no-op when the task id is unknown). -/
def Tracker.recordDirectCost (tr : Tracker) (taskId : Str) (tokens : Nat) : Tracker :=
  ⟨updateAssoc taskId (fun t => recordDirectTask t tokens) tr.tasks⟩

/-- `TokenTracker.recordDelegatedCost` (no-op when the task id is unknown). -/
def Tracker.recordDelegatedCost (tr : Tracker) (taskId : Str) (c : DelegatedCall) : Tracker :=
  ⟨updateAssoc taskId (fun t => recordDelegatedTask t c) tr.tasks⟩

/-- `TokenTracker.compareEfficiency`: `null` when the task id is unknown. -/
def Tracker.compareEfficiency (tr : Tracker) (taskId : Str) : Option EfficiencyReport :=
  (tr.tasks.lookup taskId).map compareEfficiencyTask

/-! ## TaskAnalyzer (`src/orchestration/analyzer.js`)

Keyword-matching analyzer: task type, features, complexity and the
token budget derived from them. -/

/-- A task as consumed by the analyzers: only the description drives
the keyword heuristics. -/
structure TaskObj where
  id : Str
  description : Str
  deriving Repr, DecidableEq

/-- `this.typePatterns` of `orchestration/analyzer.js`
(entries in insertion order: `ui`, `logic`). -/
def typePatterns : List (Str × List Str) :=
  [("ui".toList,
      ["ui".toList, "component".toList, "interface".toList, "view".toList,
       "form".toList, "button".toList, "input".toList]),
   ("logic".toList,
      ["function".toList, "utility".toList, "algorithm".toList,
       "hook".toList, "service".toList, "calculation".toList])]

/-- `this.featurePatterns` of `orchestration/analyzer.js`
(entries in insertion order). -/
def featurePatterns : List (Str × List Str) :=
  [("stateManagement".toList,
      ["state".toList, "store".toList, "context".toList, "reducer".toList,
       "useState".toList, "useReducer".toList]),
   ("asyncOperations".toList,
      ["async".toList, "promise".toList, "fetch".toList, "api".toList,
       "request".toList, "useEffect".toList]),
   ("accessibility".toList,
      ["a11y".toList, "accessibility".toList, "wcag".toList, "aria".toList,
       "keyboard navigation".toList]),
   ("validation".toList,
      ["validation".toList, "validate".toList, "form".toList,
       "input".toList, "sanitize".toList]),
   ("typescript".toList,
      ["typescript".toList, "type-safe".toList, "interface".toList,
       "type definition".toList])]

/-- `TaskAnalyzer.determineTaskType`: first pattern group whose keywords hit
the lowercased description; default `'ui'`. -/
def determineTaskType (task : TaskObj) : Str :=
  let description := toLowerStr task.description
  match typePatterns.find? (fun p => p.2.any (fun pat => containsStr pat description)) with
  | some p => p.1
  | none => "ui".toList

/-- `TaskAnalyzer.detectFeatures`: every feature group whose keywords hit the
lowercased description, in group-iteration order. -/
def detectFeatures (task : TaskObj) : List Str :=
  let description := toLowerStr task.description
  (featurePatterns.filter (fun p => p.2.any (fun pat => containsStr pat description))).map
    Prod.fst

/-- The per-feature weights of `TaskAnalyzer.assessComplexity`
(`stateManagement`/`asyncOperations` score 2, the rest 1, unknown 0). -/
def featureComplexityPoints (f : Str) : Nat :=
  if f = "stateManagement".toList ∨ f = "asyncOperations".toList then 2
  else if f = "accessibility".toList ∨ f = "validation".toList ∨ f = "typescript".toList then 1
  else 0

/-- `TaskAnalyzer.assessComplexity` of `orchestration/analyzer.js`. -/
def assessComplexity (task : TaskObj) : Str :=
  let score := (detectFeatures task).foldl (fun s f => s + featureComplexityPoints f) 0
  if score ≤ 2 then "low".toList
  else if score ≤ 5 then "medium".toList
  else "high".toList

/-- The `baseBudget` table of `TaskAnalyzer.estimateTokenBudget`
(`{low: 1000, medium: 2000, high: 3000}` with `|| 2000` fallback). -/
def baseBudget (complexity : Str) : Nat :=
  if complexity = "low".toList then 1000
  else if complexity = "medium".toList then 2000
  else if complexity = "high".toList then 3000
  else 2000

/-- The per-feature additional budget table of
`TaskAnalyzer.estimateTokenBudget` (`budgets[feature] || 0`). -/
def featureBudgetAmount (f : Str) : Nat :=
  if f = "stateManagement".toList then 500
  else if f = "asyncOperations".toList then 400
  else if f = "accessibility".toList then 300
  else if f = "validation".toList then 300
  else if f = "typescript".toList then 200
  else 0

/-- The `{total, analysis, implementation, review}` object returned by
`estimateTokenBudget`. -/
structure TokenBudget where
  total : ℤ
  analysis : ℤ
  implementation : ℤ
  review : ℤ
  deriving Repr, DecidableEq

/-- `TaskAnalyzer.estimateTokenBudget` of `orchestration/analyzer.js`:
complexity base plus feature additions, split 20/60/20 with `Math.round`. -/
def estimateTokenBudget (task : TaskObj) : TokenBudget :=
  let complexity := assessComplexity task
  let features := detectFeatures task
  let base := baseBudget complexity
  let featureBudget := features.foldl (fun t f => t + featureBudgetAmount f) 0
  let total := base + featureBudget
  { total := (total : ℤ)
    analysis := jsRound ((total : ℚ) * (2/10))
    implementation := jsRound ((total : ℚ) * (6/10))
    review := jsRound ((total : ℚ) * (2/10)) }

/-! ## TaskAnalyzer (`src/utils/validation.js`)

The second, lines-of-code based analyzer: type among `ui`/`logic`/`design`,
explicit complexity keyword override, seven feature groups, estimated code
lines scaled by 10 into the token budget. -/

/-- `this.componentPatterns` of the `validation.js` analyzer. -/
def componentPatternsV : List (Str × List Str) :=
  [("ui".toList,
      ["ui".toList, "component".toList, "interface".toList, "view".toList,
       "page".toList, "form".toList, "button".toList, "input".toList,
       "modal".toList, "card".toList]),
   ("logic".toList,
      ["function".toList, "utility".toList, "helper".toList, "algorithm".toList,
       "processor".toList, "hook".toList, "service".toList, "calculation".toList,
       "transformation".toList]),
   ("design".toList,
      ["design".toList, "system".toList, "theme".toList, "style".toList,
       "pattern".toList, "visual".toList, "layout".toList, "ui kit".toList,
       "component library".toList])]

/-- `this.featurePatterns` of the `validation.js` analyzer. -/
def featurePatternsV : List (Str × List Str) :=
  [("stateManagement".toList,
      ["state management".toList, "state".toList, "redux".toList, "context".toList,
       "useState".toList, "useReducer".toList, "store".toList]),
   ("asyncOperations".toList,
      ["async".toList, "promise".toList, "fetch".toList, "api".toList,
       "http".toList, "request".toList, "useEffect".toList, "axios".toList]),
   ("accessibility".toList,
      ["a11y".toList, "accessibility".toList, "wcag".toList, "aria".toList,
       "screen reader".toList, "keyboard navigation".toList, "focus management".toList]),
   ("animations".toList,
      ["animation".toList, "transition".toList, "motion".toList, "keyframe".toList,
       "transform".toList, "animate".toList]),
   ("validation".toList,
      ["validation".toList, "validate".toList, "form validation".toList,
       "input validation".toList, "error checking".toList, "sanitize".toList]),
   ("typescript".toList,
      ["typescript".toList, "typed".toList, "type-safe".toList, "interface".toList,
       "type definition".toList, "generics".toList]),
   ("responsiveDesign".toList,
      ["responsive".toList, "mobile".toList, "tablet".toList, "breakpoint".toList,
       "media query".toList, "adaptive".toList])]

/-- `this.complexityIndicators` of the `validation.js` analyzer
(entries in insertion order: `high`, `low`). -/
def complexityIndicators : List (Str × List Str) :=
  [("high".toList,
      ["complex".toList, "advanced".toList, "sophisticated".toList,
       "comprehensive".toList, "enterprise".toList, "large-scale".toList,
       "multi-step".toList, "intricate".toList]),
   ("low".toList,
      ["simple".toList, "basic".toList, "minimal".toList, "straightforward".toList,
       "small".toList, "single".toList, "elementary".toList, "starter".toList])]

/-- `determineTaskType` of the `validation.js` analyzer. -/
def determineTaskTypeV (task : TaskObj) : Str :=
  let description := toLowerStr task.description
  match componentPatternsV.find? (fun p => p.2.any (fun pat => containsStr pat description)) with
  | some p => p.1
  | none => "ui".toList

/-- `detectFeatures` of the `validation.js` analyzer. -/
def detectFeaturesV (task : TaskObj) : List Str :=
  let description := toLowerStr task.description
  (featurePatternsV.filter (fun p => p.2.any (fun pat => containsStr pat description))).map
    Prod.fst

/-- The per-feature weights of the `validation.js` `assessComplexity`. -/
def featureComplexityPointsV (f : Str) : Nat :=
  if f = "stateManagement".toList ∨ f = "asyncOperations".toList then 2
  else if f = "accessibility".toList ∨ f = "animations".toList ∨ f = "validation".toList ∨
        f = "typescript".toList ∨ f = "responsiveDesign".toList then 1
  else 0

/-- `assessComplexity` of the `validation.js` analyzer: explicit indicator
keywords short-circuit, otherwise the feature point sum is bucketed. -/
def assessComplexityV (task : TaskObj) : Str :=
  let description := toLowerStr task.description
  match complexityIndicators.find? (fun p => p.2.any (fun pat => containsStr pat description)) with
  | some p => p.1
  | none =>
    let score := (detectFeaturesV task).foldl (fun s f => s + featureComplexityPointsV f) 0
    if score ≤ 2 then "low".toList
    else if score ≤ 5 then "medium".toList
    else "high".toList

/-- The `baseLines` table of `estimateCodeLines`
(`{ui: 50, logic: 30, design: 80}` with `|| 40` fallback). -/
def baseLines (ty : Str) : Nat :=
  if ty = "ui".toList then 50
  else if ty = "logic".toList then 30
  else if ty = "design".toList then 80
  else 40

/-- The `complexityMultiplier` table of `estimateCodeLines`
(`{low: 0.7, medium: 1.0, high: 1.5}` with `|| 1.0` fallback). -/
def complexityMultiplier (complexity : Str) : ℚ :=
  if complexity = "low".toList then 7/10
  else if complexity = "medium".toList then 1
  else if complexity = "high".toList then 15/10
  else 1

/-- The per-feature additional lines of `estimateCodeLines`. -/
def featureLinesAmount (f : Str) : Nat :=
  if f = "stateManagement".toList then 20
  else if f = "asyncOperations".toList then 15
  else if f = "validation".toList then 10
  else if f = "accessibility".toList ∨ f = "animations".toList ∨ f = "typescript".toList ∨
        f = "responsiveDesign".toList then 5
  else 0

/-- `TaskAnalyzer.estimateCodeLines` of `validation.js`. -/
def estimateCodeLines (task : TaskObj) : ℤ :=
  let ty := determineTaskTypeV task
  let complexity := assessComplexityV task
  let featureLines := (detectFeaturesV task).foldl (fun t f => t + featureLinesAmount f) 0
  jsRound ((baseLines ty : ℚ) * complexityMultiplier complexity + (featureLines : ℚ))

/-- `TaskAnalyzer.estimateTokenBudget` of `validation.js`: estimated lines
times 10, split 20/60/20 with `Math.round`. -/
def estimateTokenBudgetV (task : TaskObj) : TokenBudget :=
  let linesOfCode := estimateCodeLines task
  let codeTokens := linesOfCode * 10
  { total := codeTokens
    analysis := jsRound ((codeTokens : ℚ) * (2/10))
    implementation := jsRound ((codeTokens : ℚ) * (6/10))
    review := jsRound ((codeTokens : ℚ) * (2/10)) }

/-! ## MetricsCollector (`src/scripts/analyze.js`)

Running aggregates updated by `recordTaskMetrics`; the efficiency update is
`baselineTokens = tokenUsage.total * 6; efficiency = baselineTokens / tokenUsage.total`. -/

/-- The aggregate state of `MetricsCollector.metrics` (the fields the
recorded updates touch). -/
structure MetricsState where
  tokenTotal : ℚ
  qualityAverage : ℚ
  tasksCount : ℕ
  processedTasks : ℕ
  successfulTasks : ℕ
  failedTasks : ℕ
  efficiencyCurrent : ℚ
  efficiencyHistory : List ℚ
  deriving Repr, DecidableEq

/-- The zeroed initial metrics of `_initializeMetrics`. -/
def MetricsState.init : MetricsState :=
  ⟨0, 0, 0, 0, 0, 0, 0, []⟩

/-- `MetricsCollector._updateEfficiencyMetrics`. -/
def updateEfficiencyMetrics (st : MetricsState) (tokenUsageTotal : ℚ) : MetricsState :=
  let baselineTokens := tokenUsageTotal * 6
  let efficiency := baselineTokens / tokenUsageTotal
  { st with
    efficiencyCurrent := efficiency
    efficiencyHistory := st.efficiencyHistory ++ [efficiency] }

/-- `MetricsCollector.recordTaskMetrics`: the successive `_updateTokenMetrics`,
`_updateQualityMetrics`, `_updatePerformanceMetrics`,
`_updateEfficiencyMetrics` calls (the task id is assumed fresh, so
`this.metrics.tasks.set` grows the map by one). -/
def recordTaskMetrics (st : MetricsState) (tokenUsageTotal qualityScore : ℚ)
    (success : Bool) : MetricsState :=
  let tasks := st.tasksCount + 1
  let st1 := { st with
    tasksCount := tasks
    tokenTotal := st.tokenTotal + tokenUsageTotal
    qualityAverage := (st.qualityAverage * ((tasks : ℚ) - 1) + qualityScore) / (tasks : ℚ) }
  let st2 := { st1 with
    processedTasks := st1.processedTasks + 1
    successfulTasks := if success then st1.successfulTasks + 1 else st1.successfulTasks
    failedTasks := if success then st1.failedTasks else st1.failedTasks + 1 }
  updateEfficiencyMetrics st2 tokenUsageTotal

/-! ## ImplementationComparator (`src/evaluation/comparator.js`)

`compareImplementations` ranks the per-tool quality analyses with
`[...analyses].sort((a, b) => b.analysis.overallScore - a.analysis.overallScore)`.
JavaScript's `Array.prototype.sort` is a stable sort, and for a consistent
comparator the stable sorted output is unique, so the embedding is insertion
sort in which ties keep input order. -/

/-- One element of the comparator's `analyses` array: the source tool name and
the overall score of its quality analysis. -/
structure RankedEntry where
  tool : Str
  overallScore : ℚ
  deriving Repr, DecidableEq

/-- Stable descending insertion: `x` goes in front of the first element whose
score is not larger than `x`'s (so earlier input elements win ties). -/
def insertDesc (x : RankedEntry) : List RankedEntry → List RankedEntry
  | [] => [x]
  | y :: ys => if y.overallScore ≤ x.overallScore then x :: y :: ys else y :: insertDesc x ys

/-- The `ranked` array of `compareImplementations`: stable sort descending by
`overallScore`. -/
def rankImplementations (l : List RankedEntry) : List RankedEntry :=
  l.foldr insertDesc []

/-- Descending sortedness by `overallScore`. -/
def SortedDesc (l : List RankedEntry) : Prop :=
  List.Pairwise (fun a b => b.overallScore ≤ a.overallScore) l

theorem mem_insertDesc {z x : RankedEntry} {l : List RankedEntry} :
    z ∈ insertDesc x l ↔ z = x ∨ z ∈ l := by
  induction l with
  | nil => simp [insertDesc]
  | cons y ys ih =>
    unfold insertDesc
    split
    · simp [or_comm, or_left_comm]
    · simp [ih, or_comm, or_left_comm]

theorem sortedDesc_insertDesc {x : RankedEntry} {l : List RankedEntry}
    (h : SortedDesc l) : SortedDesc (insertDesc x l) := by
  induction l with
  | nil => exact List.pairwise_singleton _ _
  | cons y ys ih =>
    unfold insertDesc
    rw [SortedDesc, List.pairwise_cons] at h
    obtain ⟨hy, hys⟩ := h
    split
    · rename_i hle
      refine List.Pairwise.cons ?_ (List.Pairwise.cons hy hys)
      intro z hz
      rcases List.mem_cons.mp hz with rfl | hz
      · exact hle
      · exact (hy z hz).trans hle
    · rename_i hgt
      refine List.Pairwise.cons ?_ (ih hys)
      intro z hz
      rcases mem_insertDesc.mp hz with rfl | hz
      · exact le_of_lt (lt_of_not_le hgt)
      · exact hy z hz

theorem sortedDesc_rankImplementations (l : List RankedEntry) :
    SortedDesc (rankImplementations l) := by
  induction l with
  | nil => exact List.Pairwise.nil
  | cons x xs ih => exact sortedDesc_insertDesc ih

theorem filter_insertDesc (q : ℚ) (x : RankedEntry) (l : List RankedEntry) :
    (insertDesc x l).filter (fun e => decide (e.overallScore = q)) =
      if x.overallScore = q then
        x :: l.filter (fun e => decide (e.overallScore = q))
      else l.filter (fun e => decide (e.overallScore = q)) := by
  induction l with
  | nil => by_cases hx : x.overallScore = q <;> simp [insertDesc, hx]
  | cons y ys ih =>
    unfold insertDesc
    by_cases hx : x.overallScore = q
    · split
      · simp [hx]
      · rename_i hgt
        have hy : ¬ y.overallScore = q := by
          intro hq
          exact hgt (by rw [hq, ← hx])
        simp [hy, ih, hx]
    · split
      · simp [hx]
      · by_cases hy : y.overallScore = q <;> simp [hy, ih, hx]

theorem filter_rankImplementations (l : List RankedEntry) (q : ℚ) :
    (rankImplementations l).filter (fun e => decide (e.overallScore = q)) =
      l.filter (fun e => decide (e.overallScore = q)) := by
  induction l with
  | nil => rfl
  | cons x xs ih =>
    show (insertDesc x (rankImplementations xs)).filter _ = _
    rw [filter_insertDesc]
    by_cases hx : x.overallScore = q <;> simp [hx, ih]

/-! ## Claim C2: compareEfficiency formula and zero guard -/

/-- C2: for every task record, `compareEfficiency` returns `efficiencyGain`
equal to `(direct − delegated.total) / direct` as a percentage when
`direct > 0`, returns `0` when `direct = 0` (no division by zero), and
returns `normalizedEfficiency` equal to that percentage multiplied by the
complexity weight `0.8` (low), `1.0` (medium), `1.2` (high). -/
theorem compareEfficiency_spec (t : TrackedTask) :
    (0 < t.direct →
      (compareEfficiencyTask t).efficiencyGain =
        ((t.direct : ℚ) - (t.delegated.total : ℚ)) / (t.direct : ℚ) * 100) ∧
    (t.direct = 0 → (compareEfficiencyTask t).efficiencyGain = 0) ∧
    (compareEfficiencyTask t).normalizedEfficiency =
      (compareEfficiencyTask t).efficiencyGain * complexityWeight t.complexity ∧
    complexityWeight "low".toList = 8/10 ∧
    complexityWeight "medium".toList = 1 ∧
    complexityWeight "high".toList = 12/10 := by
  refine ⟨?_, ?_, ?_, ?_, ?_, ?_⟩
  · intro h
    simp [compareEfficiencyTask, h]
  · intro h
    simp [compareEfficiencyTask, h]
  · simp [compareEfficiencyTask]
  · simp [complexityWeight]
  · simp [complexityWeight]
  · simp [complexityWeight]

/-- Concrete task records exercising both branches of `compareEfficiency`:
direct cost 1200 with best delegated total 300, and direct cost 0. -/
def effTaskA : TrackedTask :=
  { description := []
    complexity := "medium".toList
    direct := 1200
    delegated := ⟨100, 150, 50, 300, some ("boltDiy".toList), 10⟩
    tools := []
    completed := false }

/-- The same record with no direct cost recorded. -/
def effTaskB : TrackedTask := { effTaskA with direct := 0 }

/-- Witness for C2: at direct 1200 / delegated 300 the gain is 75%, and at
direct 0 the gain is 0. -/
theorem compareEfficiency_spec_witness :
    0 < effTaskA.direct ∧ (compareEfficiencyTask effTaskA).efficiencyGain = 75 ∧
      (compareEfficiencyTask effTaskB).efficiencyGain = 0 := by
  refine ⟨by decide, ?_, (compareEfficiency_spec effTaskB).2.1 rfl⟩
  have h := (compareEfficiency_spec effTaskA).1 (by decide)
  rw [h]
  norm_num [effTaskA]

/-! ## Claim C3: token budget components sum to the total -/

theorem jsRound_tenth_split (t : ℤ) (h : (10 : ℤ) ∣ t) :
    jsRound ((t : ℚ) * (2/10)) + jsRound ((t : ℚ) * (6/10)) + jsRound ((t : ℚ) * (2/10)) = t := by
  obtain ⟨k, rfl⟩ := h
  have h2 : ((10 * k : ℤ) : ℚ) * (2/10) = ((2 * k : ℤ) : ℚ) := by push_cast; ring
  have h6 : ((10 * k : ℤ) : ℚ) * (6/10) = ((6 * k : ℤ) : ℚ) := by push_cast; ring
  rw [h2, h6, jsRound_intCast, jsRound_intCast]
  ring

theorem dvd_baseBudget (c : Str) : 10 ∣ baseBudget c := by
  unfold baseBudget
  split_ifs <;> decide

theorem dvd_featureBudgetAmount (f : Str) : 10 ∣ featureBudgetAmount f := by
  unfold featureBudgetAmount
  split_ifs <;> decide

theorem dvd_featureBudget (l : List Str) (acc : ℕ) (h : 10 ∣ acc) :
    10 ∣ l.foldl (fun t f => t + featureBudgetAmount f) acc := by
  induction l generalizing acc with
  | nil => exact h
  | cons f fs ih => exact ih _ (Nat.dvd_add h (dvd_featureBudgetAmount f))

/-- C3: for every task, the analyzer's token-budget phase components
(the 20/60/20 `Math.round` split) sum back exactly to the reported total —
in particular within the ±1 rounding slack the spec allows — for both
analyzer variants (`orchestration/analyzer.js` and `utils/validation.js`).
Every reachable total is a multiple of 10, so the rounded split is exact. -/
theorem token_budget_components_sum (task : TaskObj) :
    (estimateTokenBudget task).analysis + (estimateTokenBudget task).implementation +
        (estimateTokenBudget task).review = (estimateTokenBudget task).total ∧
    (estimateTokenBudgetV task).analysis + (estimateTokenBudgetV task).implementation +
        (estimateTokenBudgetV task).review = (estimateTokenBudgetV task).total := by
  constructor
  · have hd : (10 : ℕ) ∣ baseBudget (assessComplexity task) +
        (detectFeatures task).foldl (fun t f => t + featureBudgetAmount f) 0 :=
      Nat.dvd_add (dvd_baseBudget _) (dvd_featureBudget _ 0 ⟨0, rfl⟩)
    have h := jsRound_tenth_split
      ((baseBudget (assessComplexity task) +
        (detectFeatures task).foldl (fun t f => t + featureBudgetAmount f) 0 : ℕ) : ℤ)
      (by exact_mod_cast hd)
    simp only [estimateTokenBudget]
    push_cast at h ⊢
    exact h
  · have h := jsRound_tenth_split (estimateCodeLines task * 10) (dvd_mul_left 10 _)
    simp only [estimateTokenBudgetV]
    exact h

/-! ## Claim C7: comparator ranking is a stable descending sort -/

/-- C7: the comparator's `ranked` output is sorted in descending order of
`overallScore`, and the sort is stable — for every score value the entries
carrying it appear in their original input order; in particular, for input
scores `[7, 9, 9, 5]` the two 9-scored entries keep their relative order. -/
theorem comparator_ranking_sorted_stable :
    (∀ l : List RankedEntry, SortedDesc (rankImplementations l)) ∧
    (∀ (l : List RankedEntry) (q : ℚ),
      (rankImplementations l).filter (fun e => decide (e.overallScore = q)) =
        l.filter (fun e => decide (e.overallScore = q))) ∧
    rankImplementations
        [⟨"alpha".toList, 7⟩, ⟨"beta".toList, 9⟩, ⟨"gamma".toList, 9⟩, ⟨"delta".toList, 5⟩] =
      [⟨"beta".toList, 9⟩, ⟨"gamma".toList, 9⟩, ⟨"alpha".toList, 7⟩, ⟨"delta".toList, 5⟩] := by
  refine ⟨sortedDesc_rankImplementations, filter_rankImplementations, ?_⟩
  norm_num [rankImplementations, insertDesc]

/-! ## Claim C9: the metrics collector's derived efficiency is the constant 6 -/

/-- C9: for every recorded task whose `tokenUsage.total` is positive, the
efficiency stored in `metrics.efficiency.current` is the constant `6`,
independent of the actual token usage, because it is computed as
`(tokenUsage.total * 6) / tokenUsage.total`. -/
theorem metrics_efficiency_constant (st : MetricsState) (total quality : ℚ) (success : Bool)
    (h : 0 < total) :
    (recordTaskMetrics st total quality success).efficiencyCurrent = 6 := by
  simp only [recordTaskMetrics, updateEfficiencyMetrics]
  rw [div_eq_iff (ne_of_gt h)]
  ring

/-- Witness for C9: recording 100 tokens on the fresh collector stores
efficiency 6. -/
theorem metrics_efficiency_constant_witness :
    (0 : ℚ) < 100 ∧
      (recordTaskMetrics MetricsState.init 100 7 true).efficiencyCurrent = 6 :=
  ⟨by norm_num, metrics_efficiency_constant MetricsState.init 100 7 true (by norm_num)⟩

/-! ## Claim C8: end-to-end login-form scenario -/

/-- The scenario task
`{id: "t1", description: "Create a login form component with validation"}`. -/
def loginTask : TaskObj :=
  ⟨"t1".toList, "Create a login form component with validation".toList⟩

/-- The tracker after `startTask("t1", …, "medium")`,
`recordDirectCost("t1", 1200)` and a delegated cost totalling 300. -/
def loginTracker : Tracker :=
  ((Tracker.init.startTask "t1".toList loginTask.description
      "medium".toList).recordDirectCost "t1".toList 1200).recordDelegatedCost
    "t1".toList ⟨"boltDiy".toList, 100, 150, 50, 10⟩

/-- The per-task record the scenario produces. -/
def loginTaskRecord : TrackedTask :=
  { description := loginTask.description
    complexity := "medium".toList
    direct := 1200
    delegated := ⟨100, 150, 50, 300, some ("boltDiy".toList), 10⟩
    tools := [("boltDiy".toList, ⟨100, 150, 50, 300, some ("boltDiy".toList), 10⟩)]
    completed := false }

/-- C8: on the task `{id: "t1", description: "Create a login form component
with validation", type: "ui", complexity: "medium"}` the analyzer determines
type `"ui"` and detects exactly the feature `"validation"`, and after the
tracker records a direct cost of 1200 and a delegated cost totalling 300,
`compareEfficiency("t1")` reports an efficiency gain of 75 percent
(rendered `"75.00%"` by `toFixed(2)`). -/
theorem end_to_end_login_scenario :
    determineTaskType loginTask = "ui".toList ∧
    detectFeatures loginTask = ["validation".toList] ∧
    (loginTracker.compareEfficiency "t1".toList).map (·.efficiencyGain) = some 75 := by
  refine ⟨by decide, by decide, ?_⟩
  have h : loginTracker.tasks.lookup "t1".toList = some loginTaskRecord := by decide
  rw [Tracker.compareEfficiency, h]
  simp only [Option.map_some']
  simp only [compareEfficiencyTask, loginTaskRecord]
  norm_num

/-! ## Claim C1: recordDelegatedCost keeps the cheapest delegated cost -/

/-- The "best so far" reduction over delegated calls: starting from `c`,
a later call replaces the holder exactly when its total is strictly
smaller (so the first call attaining the minimum wins). -/
def bestOf (c : DelegatedCall) (cs : List DelegatedCall) : DelegatedCall :=
  cs.foldl (fun b d => if callTotal d < callTotal b then d else b) c

/-- The minimum total over `c :: cs`. -/
def minTotal (c : DelegatedCall) (cs : List DelegatedCall) : ℕ :=
  cs.foldl (fun m d => Nat.min m (callTotal d)) (callTotal c)

theorem foldl_min_le (cs : List DelegatedCall) (a : ℕ) :
    cs.foldl (fun m d => Nat.min m (callTotal d)) a ≤ a := by
  induction cs generalizing a with
  | nil => exact le_refl a
  | cons d ds ih => exact (ih _).trans (Nat.min_le_left _ _)

theorem minTotal_le (c : DelegatedCall) (cs : List DelegatedCall) :
    minTotal c cs ≤ callTotal c :=
  foldl_min_le cs (callTotal c)

theorem callTotal_bestOf (cs : List DelegatedCall) (c : DelegatedCall) :
    callTotal (bestOf c cs) = minTotal c cs := by
  induction cs generalizing c with
  | nil => rfl
  | cons d ds ih =>
    show callTotal (bestOf (if callTotal d < callTotal c then d else c) ds) =
      ds.foldl (fun m d => Nat.min m (callTotal d)) (Nat.min (callTotal c) (callTotal d))
    rw [ih]
    unfold minTotal
    congr 1
    split
    · rename_i hlt
      exact (Nat.min_eq_right (le_of_lt hlt)).symm
    · rename_i hge
      exact (Nat.min_eq_left (Nat.le_of_not_lt hge)).symm

theorem find?_cons_true (p : DelegatedCall → Bool) (a : DelegatedCall)
    (l : List DelegatedCall) (h : p a = true) : List.find? p (a :: l) = some a := by
  simp [List.find?, h]

theorem find?_cons_false (p : DelegatedCall → Bool) (a : DelegatedCall)
    (l : List DelegatedCall) (h : p a = false) : List.find? p (a :: l) = List.find? p l := by
  simp [List.find?, h]

theorem bestOf_first (cs : List DelegatedCall) (c : DelegatedCall) :
    (c :: cs).find? (fun d => callTotal d == callTotal (bestOf c cs)) =
      some (bestOf c cs) := by
  induction cs generalizing c with
  | nil => simp [bestOf, List.find?]
  | cons d ds ih =>
    by_cases hlt : callTotal d < callTotal c
    · have hb : bestOf c (d :: ds) = bestOf d ds := by
        show bestOf (if callTotal d < callTotal c then d else c) ds = _
        rw [if_pos hlt]
      rw [hb]
      have hmin : callTotal (bestOf d ds) ≤ callTotal d := by
        rw [callTotal_bestOf]; exact minTotal_le d ds
      rw [find?_cons_false (fun x => callTotal x == callTotal (bestOf d ds)) c (d :: ds)
        (by simp only [beq_eq_false_iff_ne, ne_eq]; omega)]
      exact ih d
    · have hb : bestOf c (d :: ds) = bestOf c ds := by
        show bestOf (if callTotal d < callTotal c then d else c) ds = _
        rw [if_neg hlt]
      rw [hb]
      have hmin : callTotal (bestOf c ds) ≤ callTotal c := by
        rw [callTotal_bestOf]; exact minTotal_le c ds
      by_cases hc : callTotal c = callTotal (bestOf c ds)
      · have h2 := ih c
        rw [find?_cons_true (fun x => callTotal x == callTotal (bestOf c ds)) c ds
          (by simp [hc])] at h2
        rw [find?_cons_true (fun x => callTotal x == callTotal (bestOf c ds)) c (d :: ds)
          (by simp [hc])]
        exact h2
      · have h2 := ih c
        rw [find?_cons_false (fun x => callTotal x == callTotal (bestOf c ds)) c ds
          (by simp [hc])] at h2
        rw [find?_cons_false (fun x => callTotal x == callTotal (bestOf c ds)) c (d :: ds)
          (by simp [hc])]
        rw [find?_cons_false (fun x => callTotal x == callTotal (bestOf c ds)) d ds
          (by simp only [beq_eq_false_iff_ne, ne_eq]; omega)]
        exact h2

theorem foldl_recordDelegated_delegated (cs : List DelegatedCall) (t : TrackedTask)
    (c : DelegatedCall) (ht : t.delegated = delegatedOfCall c) (hc : 0 < callTotal c)
    (hcs : ∀ d ∈ cs, 0 < callTotal d) :
    (cs.foldl recordDelegatedTask t).delegated = delegatedOfCall (bestOf c cs) := by
  induction cs generalizing t c with
  | nil => simpa [bestOf] using ht
  | cons d ds ih =>
    show ((ds.foldl recordDelegatedTask (recordDelegatedTask t d))).delegated = _
    have hstep : (recordDelegatedTask t d).delegated =
        delegatedOfCall (if callTotal d < callTotal c then d else c) := by
      simp only [recordDelegatedTask, ht]
      split
      · rename_i hcond
        rcases hcond with h0 | hlt
        · exact absurd h0 (Nat.pos_iff_ne_zero.mp hc)
        · rw [if_pos (show callTotal d < callTotal c from hlt)]
      · rename_i hcond
        push_neg at hcond
        rw [if_neg (Nat.not_lt.mpr (show callTotal c ≤ callTotal d from hcond.2))]
    have hb : bestOf c (d :: ds) = bestOf (if callTotal d < callTotal c then d else c) ds := rfl
    rw [hb]
    refine ih (recordDelegatedTask t d) _ hstep ?_
      (fun e he => hcs e (List.mem_cons_of_mem d he))
    split
    · exact hcs d (List.mem_cons_self d ds)
    · exact hc

/-- C1 (amended): for every started task and every nonempty sequence of
`recordDelegatedCost` calls all of whose totals are positive, the task's
`delegated` field holds the breakdown of the first call attaining the
minimum total, so `delegated.total` is the minimum total seen and
`toolName` is that call's tool. (The positivity hypothesis is necessary:
the guard `!task.delegated.total` treats a recorded total of `0` as
"no record yet", see the counterexample.) -/
theorem recordDelegatedCost_keeps_minimum (description complexity : Str)
    (c : DelegatedCall) (cs : List DelegatedCall)
    (hc : 0 < callTotal c) (hcs : ∀ d ∈ cs, 0 < callTotal d) :
    ((c :: cs).foldl recordDelegatedTask
        (startTaskRecord description complexity)).delegated =
      delegatedOfCall (bestOf c cs) ∧
    ((c :: cs).foldl recordDelegatedTask
        (startTaskRecord description complexity)).delegated.total = minTotal c cs ∧
    (c :: cs).find? (fun d => callTotal d == minTotal c cs) = some (bestOf c cs) ∧
    ((c :: cs).foldl recordDelegatedTask
        (startTaskRecord description complexity)).delegated.toolName =
      some (bestOf c cs).toolName := by
  have h1 : ((c :: cs).foldl recordDelegatedTask
      (startTaskRecord description complexity)).delegated = delegatedOfCall (bestOf c cs) := by
    show ((cs.foldl recordDelegatedTask
      (recordDelegatedTask (startTaskRecord description complexity) c))).delegated = _
    refine foldl_recordDelegated_delegated cs _ c ?_ hc hcs
    simp [recordDelegatedTask, startTaskRecord]
  refine ⟨h1, ?_, ?_, ?_⟩
  · rw [h1]
    exact callTotal_bestOf cs c
  · rw [← callTotal_bestOf]
    exact bestOf_first cs c
  · rw [h1]
    rfl

/-- A delegated call with total 500 from `toolA`. -/
def callA : DelegatedCall := ⟨"toolA".toList, 200, 250, 50, 20⟩

/-- A delegated call with total 300 from `toolB`. -/
def callB : DelegatedCall := ⟨"toolB".toList, 100, 150, 50, 10⟩

/-- Witness for C1: recording totals 500 then 300 leaves
`delegated.total = 300` tagged with the second call's tool. -/
theorem recordDelegatedCost_keeps_minimum_witness :
    0 < callTotal callA ∧ (∀ d ∈ [callB], 0 < callTotal d) ∧
    (List.foldl recordDelegatedTask (startTaskRecord [] ("medium".toList))
        [callA, callB]).delegated.total = 300 ∧
    (List.foldl recordDelegatedTask (startTaskRecord [] ("medium".toList))
        [callA, callB]).delegated.toolName = some ("toolB".toList) := by
  have h := recordDelegatedCost_keeps_minimum [] ("medium".toList) callA [callB]
    (by decide) (by decide)
  refine ⟨by decide, by decide, ?_, ?_⟩
  · rw [h.2.1]; decide
  · rw [h.2.2.2]; decide

/-- A delegated call whose cost breakdown is all zero (total 0). -/
def callZero : DelegatedCall := ⟨"toolA".toList, 0, 0, 0, 5⟩

/-- Counterexample to C1 as stated: after recording a call with total 0 and
then a call with total 300, the minimum total seen is 0 but the stored
`delegated.total` is 300 — the guard `!task.delegated.total` treats the
recorded 0 as absent and lets the later, larger record overwrite it. -/
theorem recordDelegatedCost_zero_total_cex :
    (List.foldl recordDelegatedTask (startTaskRecord [] ("medium".toList))
        [callZero, callB]).delegated.total = 300 ∧
    minTotal callZero [callB] = 0 ∧ (300 : ℕ) ≠ 0 := by decide

/-! ## QualityAnalyzer (`src/evaluation/quality-analyzer.js`)

`analyzeQuality` extracts code from the implementation (largest fenced block,
else raw text), applies the fixed simulated metric scores, and aggregates the
weighted total; any error raised in the `try` block is caught and converted
into a zero-score result — but the `catch` block itself dereferences
`implementation.metadata`, which rethrows when `implementation` is `null`. -/

/-- The backtick character (U+0060). -/
def btick : Char := Char.ofNat 96

/-- The opening/closing fence of the code-block regex. -/
def fenceTicks : Str := [btick, btick, btick]

/-- JavaScript `\w` (ASCII word characters). -/
def isWordChar (c : Char) : Bool := c.isAlpha || c.isDigit || c = '_'

/-- The lazy capture `([\s\S]*?)` up to the next closing fence: splits off the
shortest prefix that is followed by three backticks, together with the text
after the closing fence; `none` when no closing fence exists. -/
def findFenceClose : Str → Option (Str × Str)
  | [] => none
  | c :: rest =>
    if fenceTicks.isPrefixOf (c :: rest) then some ([], (c :: rest).drop 3)
    else
      match findFenceClose rest with
      | some (cap, after) => some (c :: cap, after)
      | none => none

theorem findFenceClose_length (s cap after : Str)
    (h : findFenceClose s = some (cap, after)) : after.length + 3 ≤ s.length := by
  induction s generalizing cap with
  | nil => simp [findFenceClose] at h
  | cons c rest ih =>
    unfold findFenceClose at h
    split at h
    · rename_i hpre
      have hlen : 3 ≤ (c :: rest).length :=
        (List.isPrefixOf_iff_prefix.mp hpre).length_le
      simp only [Option.some.injEq, Prod.mk.injEq] at h
      rw [← h.2, List.length_drop]
      omega
    · rename_i hpre
      cases hfc : findFenceClose rest with
      | none => rw [hfc] at h; exact absurd h (by simp)
      | some p =>
        rw [hfc] at h
        obtain ⟨cap', after'⟩ := p
        simp only [Option.some.injEq, Prod.mk.injEq] at h
        have h2 : findFenceClose rest = some (cap', after) := by rw [hfc, h.2]
        have h3 := ih cap' h2
        simp only [List.length_cons]
        omega

/-- One attempted match of `/```\w*\n([\s\S]*?)```/` at the start of `s`:
three backticks, a greedy run of word characters, a newline, then the lazy
body capture up to the closing fence. Returns the capture and the text after
the whole match. -/
def matchFenceAt (s : Str) : Option (Str × Str) :=
  if fenceTicks.isPrefixOf s then
    match (s.drop 3).dropWhile isWordChar with
    | c :: body => if c = '\n' then findFenceClose body else none
    | [] => none
  else none

theorem matchFenceAt_length (s cap after : Str)
    (h : matchFenceAt s = some (cap, after)) : after.length < s.length := by
  unfold matchFenceAt at h
  split at h
  · rename_i hpre
    have hlen : 3 ≤ s.length := (List.isPrefixOf_iff_prefix.mp hpre).length_le
    split at h
    · rename_i c body heq
      split at h
      · have hfc := findFenceClose_length body cap after h
        have hbody : body.length + 1 ≤ (s.drop 3).length := by
          have h1 : ((s.drop 3).dropWhile isWordChar).length ≤ (s.drop 3).length :=
            List.Sublist.length_le (List.dropWhile_sublist _)
          rw [heq] at h1
          simpa using h1
        rw [List.length_drop] at hbody
        omega
      · exact absurd h (by simp)
    · exact absurd h (by simp)
  · exact absurd h (by simp)

/-- The `matchAll` loop of `_extractCode` with explicit fuel: collect every
fenced-block capture, scanning left to right; a failed match attempt advances
one character. Each step consumes at least one character of the scanned
string (`matchFenceAt_length`), so fuel equal to the string length never runs
out and the fuel parameter is only a structural-recursion device. -/
def scanFencesF : Nat → Str → List Str
  | 0, _ => []
  | _ + 1, [] => []
  | fuel + 1, c :: rest =>
    match matchFenceAt (c :: rest) with
    | some (cap, after) => cap :: scanFencesF fuel after
    | none => scanFencesF fuel rest

/-- The `matchAll` loop of `_extractCode`. -/
def scanFences (s : Str) : List Str := scanFencesF s.length s

/-- `_extractCode` on a string implementation: the largest fenced code block
(earliest wins ties, via `reduce` initialised with the first match), or the
raw text when no block exists. -/
def extractFromStr (s : Str) : Str :=
  match scanFences s with
  | [] => s
  | m :: ms => (m :: ms).foldl (fun best x => if best.length < x.length then x else best) m

/-- JavaScript values passed to `analyzeQuality` as `implementation`:
a string, an object (with its optional `implementation` field and optional
`metadata.tool`), or `null`. -/
inductive JsImpl where
  | jstr (s : Str)
  | jobj (implementation : Option JsImpl) (tool : Option Str)
  | jnull

/-- JavaScript truthiness of the `implementation.implementation` field
(`undefined`, `null` and `''` are falsy). -/
def truthyOpt : Option JsImpl → Bool
  | none => false
  | some .jnull => false
  | some (.jstr s) => !s.isEmpty
  | some (.jobj _ _) => true

/-- `QualityAnalyzer._extractCode`: strings are scanned for fenced blocks,
objects recurse into a string `implementation` field and otherwise yield
`null`; property access on a `null` argument raises a `TypeError`. -/
def extractCode : JsImpl → Except Str (Option Str)
  | .jstr s => .ok (some (extractFromStr s))
  | .jnull => .error ("Cannot read properties of null (reading 'implementation')".toList)
  | .jobj impl _ =>
    if truthyOpt impl then
      match impl with
      | some (.jstr s) => .ok (some (extractFromStr s))
      | _ => .ok none
    else .ok none

/-- The `this.metrics` weight table (insertion order, weights as in source:
0.20, 0.15, 0.15, 0.10, 0.10, 0.10, 0.10, 0.10). -/
def metricsList : List (Str × ℚ) :=
  [("functionality".toList, 20/100),
   ("codeQuality".toList, 15/100),
   ("architecture".toList, 15/100),
   ("accessibility".toList, 10/100),
   ("performance".toList, 10/100),
   ("visualImplementation".toList, 10/100),
   ("errorHandling".toList, 10/100),
   ("tokenEfficiency".toList, 10/100)]

/-- `_getScores`: the fixed simulated per-metric raw scores
(8.5, 8.0, 7.5, 6.5, 7.0, 8.0, 7.0, 8.5), independent of the code,
the implementation and the task. -/
def simulatedScores : List (Str × ℚ) :=
  [("functionality".toList, 85/10),
   ("codeQuality".toList, 8),
   ("architecture".toList, 75/10),
   ("accessibility".toList, 65/10),
   ("performance".toList, 7),
   ("visualImplementation".toList, 8),
   ("errorHandling".toList, 7),
   ("tokenEfficiency".toList, 85/10)]

/-- One entry of `detailedScores`. -/
structure DetailedScore where
  metric : Str
  rawScore : ℚ
  weight : ℚ
  weightedScore : ℚ
  deriving Repr, DecidableEq

/-- `Math.round(totalScore * 10) / 10`: round to one decimal place. -/
def round1 (x : ℚ) : ℚ := (jsRound (x * 10) : ℚ) / 10

/-- The result object of `analyzeQuality` (the fields the claims are about;
aggregated weaknesses are represented by the metric names that trigger the
`rawScore < 6` filter, resp. the literal `Analysis failed: …` message). -/
structure QAnalysis where
  overallScore : ℚ
  detailedScores : List DetailedScore
  weaknesses : List Str
  isError : Bool
  deriving Repr, DecidableEq

/-- `_aggregateWeaknesses`: the metrics whose raw score is below 6 (the
source formats each as a `Weak …` bullet; the fixed scores are all ≥ 6.5,
so this list is empty on every success path). -/
def aggregateWeaknessHeaders (ds : List DetailedScore) : List Str :=
  (ds.filter (fun d => decide (d.rawScore < 6))).map (fun d => d.metric)

/-- The `Analysis failed: ${error.message}` weakness of the catch branch. -/
def analysisFailedMsg (e : Str) : Str := "Analysis failed: ".toList ++ e

/-- The zero-score result returned by the catch branch. -/
def zeroResult (e : Str) : QAnalysis :=
  ⟨0, [], [analysisFailedMsg e], true⟩

/-- The `Error('No code found in implementation')` message. -/
def noCodeMsg : Str := "No code found in implementation".toList

/-- The success-path result: the weighted-score loop over `this.metrics`
(skipping metrics without a score — all eight have one), the rounded total,
and the aggregated weaknesses. -/
def successResult : QAnalysis :=
  let detailed := metricsList.filterMap
    (fun p => (simulatedScores.lookup p.1).map (fun r => ⟨p.1, r, p.2, r * p.2⟩))
  let total := (detailed.map (fun d => d.weightedScore)).sum
  ⟨round1 total, detailed, aggregateWeaknessHeaders detailed, false⟩

/-- `QualityAnalyzer.analyzeQuality`: extract code (`throw` when falsy),
score and aggregate; exceptions are caught and turned into the zero-score
result, except that the catch block rethrows on a `null` implementation. -/
def analyzeQuality (impl : JsImpl) : Except Str QAnalysis :=
  match extractCode impl with
  | .error _ =>
    match impl with
    | .jnull => .error ("Cannot read properties of null (reading 'metadata')".toList)
    | _ => .ok (zeroResult ("Cannot read properties of null (reading 'implementation')".toList))
  | .ok none => .ok (zeroResult noCodeMsg)
  | .ok (some code) =>
    if code.isEmpty then .ok (zeroResult noCodeMsg) else .ok successResult

/-! ## Claims C5, C6, C10: quality analysis invariants -/

theorem successResult_overall : successResult.overallScore = 77/10 := by
  have hsum : ((metricsList.filterMap
      (fun p => (simulatedScores.lookup p.1).map
        (fun r => (⟨p.1, r, p.2, r * p.2⟩ : DetailedScore)))).map
          (fun d => d.weightedScore)).sum = 309/40 := by
    simp +decide [metricsList, simulatedScores, List.lookup]
    norm_num
  show round1 ((metricsList.filterMap
      (fun p => (simulatedScores.lookup p.1).map
        (fun r => (⟨p.1, r, p.2, r * p.2⟩ : DetailedScore)))).map
          (fun d => d.weightedScore)).sum = 77/10
  rw [hsum]
  unfold round1 jsRound
  have h : ⌊(309:ℚ)/40 * 10 + 1/2⌋ = (77:ℤ) := by
    apply Int.floor_eq_iff.mpr
    constructor <;> norm_num
  rw [h]
  norm_num

theorem round1_zero : round1 0 = 0 := by
  unfold round1 jsRound
  have h : ⌊(0:ℚ) * 10 + 1/2⌋ = (0:ℤ) := by
    apply Int.floor_eq_iff.mpr
    constructor <;> norm_num
  rw [h]
  norm_num

theorem analyzeQuality_ok_none (impl : JsImpl)
    (hx : extractCode impl = Except.ok none) :
    analyzeQuality impl = Except.ok (zeroResult noCodeMsg) := by
  unfold analyzeQuality
  split
  · rename_i e heq
    rw [hx] at heq
    exact absurd heq (by simp)
  · rfl
  · rename_i code heq
    rw [hx] at heq
    exact absurd (Except.ok.inj heq) (by simp)

theorem analyzeQuality_ok_some (impl : JsImpl) (code : Str)
    (hx : extractCode impl = Except.ok (some code)) :
    analyzeQuality impl =
      (if code.isEmpty then Except.ok (zeroResult noCodeMsg)
       else Except.ok successResult) := by
  unfold analyzeQuality
  split
  · rename_i e heq
    rw [hx] at heq
    exact absurd heq (by simp)
  · rename_i heq
    rw [hx] at heq
    exact absurd (Except.ok.inj heq) (by simp)
  · rename_i code' heq
    rw [hx] at heq
    rw [Option.some.inj (Except.ok.inj heq)]

theorem extractCode_jobj_ok (io : Option JsImpl) (tl : Option Str) :
    ∃ codeOpt, extractCode (JsImpl.jobj io tl) = Except.ok codeOpt := by
  cases io with
  | none => exact ⟨none, rfl⟩
  | some v =>
    cases v with
    | jnull => exact ⟨none, rfl⟩
    | jobj i2 t2 => exact ⟨none, rfl⟩
    | jstr s =>
      cases hs : s.isEmpty with
      | true => exact ⟨none, by simp [extractCode, truthyOpt, hs]⟩
      | false =>
        exact ⟨some (extractFromStr s), by simp [extractCode, truthyOpt, hs]⟩

theorem weightedScore_eq_raw_mul_weight (d : DetailedScore)
    (hd : d ∈ successResult.detailedScores) :
    d.weightedScore = d.rawScore * d.weight := by
  have hmem : d ∈ metricsList.filterMap
      (fun p => (simulatedScores.lookup p.1).map
        (fun r => (⟨p.1, r, p.2, r * p.2⟩ : DetailedScore))) := hd
  rw [List.mem_filterMap] at hmem
  obtain ⟨p, _, hmap⟩ := hmem
  rw [Option.map_eq_some'] at hmap
  obtain ⟨r, _, heq⟩ := hmap
  rw [← heq]

/-- C5: for every quality analysis `analyzeQuality` produces, the eight
metric weights sum to 1, each recorded weighted score is raw score × weight,
the overall score is the weighted total rounded to one decimal place, and
the overall score lies in `[0, 10]`. -/
theorem quality_invariants (impl : JsImpl) (r : QAnalysis)
    (h : analyzeQuality impl = Except.ok r) :
    (metricsList.map Prod.snd).sum = 1 ∧
    (∀ d ∈ r.detailedScores, d.weightedScore = d.rawScore * d.weight) ∧
    r.overallScore = round1 ((r.detailedScores.map (fun d => d.weightedScore)).sum) ∧
    0 ≤ r.overallScore ∧ r.overallScore ≤ 10 := by
  have hweights : (metricsList.map Prod.snd).sum = 1 := by norm_num [metricsList]
  have hzero : ∀ e, r = zeroResult e →
      (∀ d ∈ r.detailedScores, d.weightedScore = d.rawScore * d.weight) ∧
      r.overallScore = round1 ((r.detailedScores.map (fun d => d.weightedScore)).sum) ∧
      0 ≤ r.overallScore ∧ r.overallScore ≤ 10 := by
    rintro e rfl
    refine ⟨by simp [zeroResult], ?_, le_refl 0, by norm_num [zeroResult]⟩
    show (0 : ℚ) = round1 (([] : List ℚ).sum)
    rw [List.sum_nil, round1_zero]
  have hsucc : r = successResult →
      (∀ d ∈ r.detailedScores, d.weightedScore = d.rawScore * d.weight) ∧
      r.overallScore = round1 ((r.detailedScores.map (fun d => d.weightedScore)).sum) ∧
      0 ≤ r.overallScore ∧ r.overallScore ≤ 10 := by
    rintro rfl
    refine ⟨weightedScore_eq_raw_mul_weight, rfl, ?_, ?_⟩
    · rw [successResult_overall]; norm_num
    · rw [successResult_overall]; norm_num
  have hcont : ∀ codeOpt, extractCode impl = Except.ok codeOpt →
      (metricsList.map Prod.snd).sum = 1 ∧
      (∀ d ∈ r.detailedScores, d.weightedScore = d.rawScore * d.weight) ∧
      r.overallScore = round1 ((r.detailedScores.map (fun d => d.weightedScore)).sum) ∧
      0 ≤ r.overallScore ∧ r.overallScore ≤ 10 := by
    intro codeOpt hx
    cases codeOpt with
    | none =>
      rw [analyzeQuality_ok_none impl hx] at h
      exact ⟨hweights, hzero _ (Except.ok.inj h).symm⟩
    | some code =>
      rw [analyzeQuality_ok_some impl code hx] at h
      by_cases hc : code.isEmpty
      · rw [if_pos hc] at h
        exact ⟨hweights, hzero _ (Except.ok.inj h).symm⟩
      · rw [if_neg hc] at h
        exact ⟨hweights, hsucc (Except.ok.inj h).symm⟩
  cases impl with
  | jnull => exact absurd h (by simp [analyzeQuality, extractCode])
  | jstr s => exact hcont (some (extractFromStr s)) rfl
  | jobj io tl =>
    obtain ⟨codeOpt, hx⟩ := extractCode_jobj_ok io tl
    exact hcont codeOpt hx

/-- Witness for C5: the analysis of a plain code string satisfies all the
invariants (its overall score is 7.7). -/
theorem quality_invariants_witness :
    (metricsList.map Prod.snd).sum = 1 ∧
    (∀ d ∈ successResult.detailedScores, d.weightedScore = d.rawScore * d.weight) ∧
    successResult.overallScore =
      round1 ((successResult.detailedScores.map (fun d => d.weightedScore)).sum) ∧
    0 ≤ successResult.overallScore ∧ successResult.overallScore ≤ 10 :=
  quality_invariants (JsImpl.jstr ("const x = 1".toList)) successResult rfl

/-- C6 (amended): for every non-`null` implementation value (string or
object), `analyzeQuality` never throws: it returns a result whose overall
score is the numeric 7.7, or the zero-score failure result carrying
`Analysis failed: No code found in implementation` among its weaknesses.
(The non-`null` hypothesis is necessary: the `catch` block dereferences
`implementation.metadata`, which rethrows on `null` — see the
counterexample.) -/
theorem quality_fails_soft (impl : JsImpl) (h : impl ≠ JsImpl.jnull) :
    ∃ r, analyzeQuality impl = Except.ok r ∧
      (r.overallScore = 77/10 ∨
        (r.overallScore = 0 ∧ r.weaknesses = [analysisFailedMsg noCodeMsg])) := by
  have hsome : ∀ code, extractCode impl = Except.ok (some code) →
      ∃ r, analyzeQuality impl = Except.ok r ∧
        (r.overallScore = 77/10 ∨
          (r.overallScore = 0 ∧ r.weaknesses = [analysisFailedMsg noCodeMsg])) := by
    intro code hx
    rw [analyzeQuality_ok_some impl code hx]
    by_cases hc : code.isEmpty
    · rw [if_pos hc]
      exact ⟨_, rfl, Or.inr ⟨rfl, rfl⟩⟩
    · rw [if_neg hc]
      exact ⟨_, rfl, Or.inl successResult_overall⟩
  have hnone : extractCode impl = Except.ok none →
      ∃ r, analyzeQuality impl = Except.ok r ∧
        (r.overallScore = 77/10 ∨
          (r.overallScore = 0 ∧ r.weaknesses = [analysisFailedMsg noCodeMsg])) := by
    intro hx
    rw [analyzeQuality_ok_none impl hx]
    exact ⟨_, rfl, Or.inr ⟨rfl, rfl⟩⟩
  cases impl with
  | jnull => exact absurd rfl h
  | jstr s => exact hsome (extractFromStr s) rfl
  | jobj io tl =>
    cases io with
    | none => exact hnone rfl
    | some v =>
      cases v with
      | jnull => exact hnone rfl
      | jobj i2 t2 => exact hnone rfl
      | jstr s =>
        cases hs : s.isEmpty with
        | true => exact hnone (by simp [extractCode, truthyOpt, hs])
        | false =>
          exact hsome (extractFromStr s) (by simp [extractCode, truthyOpt, hs])

/-- Witness for C6: a plain string implementation with no fenced code block
yields a normal 7.7-score result without throwing. -/
theorem quality_fails_soft_witness :
    JsImpl.jstr ("const x = 1".toList) ≠ JsImpl.jnull ∧
    ∃ r, analyzeQuality (JsImpl.jstr ("const x = 1".toList)) = Except.ok r ∧
      (r.overallScore = 77/10 ∨
        (r.overallScore = 0 ∧ r.weaknesses = [analysisFailedMsg noCodeMsg])) :=
  ⟨fun h => JsImpl.noConfusion h,
    quality_fails_soft (JsImpl.jstr ("const x = 1".toList)) (fun h => JsImpl.noConfusion h)⟩

/-- Counterexample to C6 as stated: on the implementation value `null` the
analysis throws to the caller — the `catch` block evaluates
`implementation.metadata?.tool` and `null.metadata` raises a fresh
`TypeError` that propagates out of `analyzeQuality`. -/
theorem quality_null_throws_cex :
    analyzeQuality JsImpl.jnull =
      Except.error ("Cannot read properties of null (reading 'metadata')".toList) := rfl

/-- C10: whenever code can be extracted from the implementation (a non-empty
largest fenced block or non-empty raw text), `analyzeQuality` returns the
fixed result whose `overallScore` is exactly 7.7, independent of the
implementation and the task — so any two such analyses score equally. -/
theorem quality_score_constant (impl : JsImpl) (code : Str)
    (hx : extractCode impl = Except.ok (some code)) (hne : code ≠ []) :
    analyzeQuality impl = Except.ok successResult ∧
      successResult.overallScore = 77/10 := by
  constructor
  · rw [analyzeQuality_ok_some impl code hx]
    rw [if_neg (by simpa using hne)]
  · exact successResult_overall

/-- Witness for C10: a plain code string extracts to itself and scores 7.7. -/
theorem quality_score_constant_witness :
    extractCode (JsImpl.jstr ("const x = 1".toList)) =
      Except.ok (some ("const x = 1".toList)) ∧
    "const x = 1".toList ≠ [] ∧
    analyzeQuality (JsImpl.jstr ("const x = 1".toList)) = Except.ok successResult ∧
    successResult.overallScore = 77/10 :=
  ⟨rfl, by simp,
    (quality_score_constant (JsImpl.jstr ("const x = 1".toList))
      ("const x = 1".toList) rfl (by simp)).1,
    (quality_score_constant (JsImpl.jstr ("const x = 1".toList))
      ("const x = 1".toList) rfl (by simp)).2⟩

/-! ## fillTemplate (`src/utils/template-builder.js`)

`fillTemplate(template, data, defaults)` scans the template with
`/\{([^}]+)\}/g`, then for each collected placeholder name replaces every
occurrence of `{name}` by the task datum, or else the template default, or
else leaves it alone. The scan and the global replacement are modelled with
a structurally recursive skip counter: after a match the scanner continues
right after the match, exactly like the regex `lastIndex`, and replacement
text is never rescanned. -/

/-- The opening brace. -/
def lbChar : Char := '\x7b'

/-- The closing brace. -/
def rbChar : Char := '\x7d'

/-- The literal text `{name}`. -/
def phStr (name : Str) : Str := lbChar :: (name ++ [rbChar])

/-- The placeholder scan of `/\{([^}]+)\}/g`: at an opening brace, the name
is the nonempty run of non-`}` characters up to the next `}`; a successful
match continues right after the closing brace (`skip` pending characters), a
failed attempt advances one character. -/
def scanGo : Str → Nat → List Str
  | [], _ => []
  | _ :: rest, skip + 1 => scanGo rest skip
  | c :: rest, 0 =>
    if c = lbChar then
      let name := rest.takeWhile (· ≠ rbChar)
      if name ≠ [] ∧ rest.dropWhile (· ≠ rbChar) ≠ [] then
        name :: scanGo rest name.length
      else scanGo rest 0
    else scanGo rest 0

/-- All placeholder names of a template, in match order. -/
def scanPH (template : Str) : List Str := scanGo template 0

/-- `String.prototype.replace(new RegExp(pattern, 'g'), repl)` for a literal
pattern: replace every leftmost non-overlapping occurrence, never rescanning
the replacement text. -/
def repGo (pat repl : Str) : Str → Nat → Str
  | [], _ => []
  | _ :: rest, skip + 1 => repGo pat repl rest skip
  | c :: rest, 0 =>
    if pat.isPrefixOf (c :: rest) ∧ pat ≠ [] then
      repl ++ repGo pat repl rest (pat.length - 1)
    else c :: repGo pat repl rest 0

/-- Replace all occurrences of `pat` in `s` by `repl`. -/
def replaceAllStr (pat repl s : Str) : Str := repGo pat repl s 0

/-- `data[name] !== undefined ? data[name] : defaults[name]`. -/
def lookup2 (data defaults : List (Str × Str)) (name : Str) : Option Str :=
  match data.lookup name with
  | some v => some v
  | none => defaults.lookup name

/-- `fillTemplate`: fold the per-placeholder replacement over the scanned
placeholder list, starting from the template text. -/
def fillTemplate (template : Str) (data defaults : List (Str × Str)) : Str :=
  (scanPH template).foldl (fun acc name =>
    match lookup2 data defaults name with
    | some v => replaceAllStr (phStr name) v acc
    | none => acc) template

/-! ### Well-formed templates as segment lists

For the general resolution theorem a template is presented as a list of
segments — brace-free literal characters and `{name}` placeholders with
nonempty word-character names — rendered into the template text. -/

/-- A template segment. -/
inductive Seg where
  | lit (c : Char)
  | ph (name : Str)
  deriving DecidableEq, Repr

/-- Text of one segment. -/
def renderSeg : Seg → Str
  | .lit c => [c]
  | .ph n => phStr n

/-- Template text of a segment list. -/
def render : List Seg → Str
  | [] => []
  | sg :: rest => renderSeg sg ++ render rest

/-- A placeholder name is nonempty and made of word characters. -/
def wfName (n : Str) : Bool := !n.isEmpty && n.all isWordChar

/-- Well-formed segment: brace-free literal, or well-formed name. -/
def wfSeg : Seg → Bool
  | .lit c => !(c = lbChar || c = rbChar)
  | .ph n => wfName n

/-- A substitution value containing no brace and no `$` (so JavaScript's
`$`-substitution in `String.replace` is the identity on it). -/
def cleanVal (v : Str) : Bool := v.all (fun c => !(c = lbChar || c = rbChar || c = '$'))

/-- Substituting a value for every `{n}` placeholder at the segment level. -/
def substSeg (n v : Str) : List Seg → List Seg
  | [] => []
  | .ph m :: rest => (if m = n then v.map Seg.lit else [Seg.ph m]) ++ substSeg n v rest
  | .lit c :: rest => Seg.lit c :: substSeg n v rest

/-- The placeholder names of a segment list, in order. -/
def phNames : List Seg → List Str
  | [] => []
  | .ph m :: rest => m :: phNames rest
  | .lit _ :: rest => phNames rest

/-- One step of the `fillTemplate` fold at the segment level. -/
def stepSeg (data defaults : List (Str × Str)) (segs : List Seg) (name : Str) : List Seg :=
  match lookup2 data defaults name with
  | some v => substSeg name v segs
  | none => segs

theorem isWordChar_ne_braces (c : Char) (h : isWordChar c = true) :
    c ≠ lbChar ∧ c ≠ rbChar := by
  have h1 : isWordChar lbChar = false := by decide
  have h2 : isWordChar rbChar = false := by decide
  constructor <;> rintro rfl <;> simp_all

theorem scanGo_skip (k : Nat) (l : Str) : scanGo l k = scanGo (l.drop k) 0 := by
  induction k generalizing l with
  | zero => rw [List.drop_zero]
  | succ k ih =>
    cases l with
    | nil => rfl
    | cons c rest =>
      show scanGo rest k = _
      rw [ih, List.drop_succ_cons]

theorem repGo_skip (pat repl : Str) (k : Nat) (l : Str) :
    repGo pat repl l k = repGo pat repl (l.drop k) 0 := by
  induction k generalizing l with
  | zero => rw [List.drop_zero]
  | succ k ih =>
    cases l with
    | nil => rfl
    | cons c rest =>
      show repGo pat repl rest k = _
      rw [ih, List.drop_succ_cons]

theorem takeWhile_append_all (p : Char → Bool) (l r : Str) (h : ∀ c ∈ l, p c = true) :
    (l ++ r).takeWhile p = l ++ r.takeWhile p := by
  induction l with
  | nil => rfl
  | cons c l' ih =>
    rw [List.cons_append, List.takeWhile_cons, h c (List.mem_cons_self _ _),
      ih (fun x hx => h x (List.mem_cons_of_mem c hx))]
    rfl

theorem dropWhile_append_all (p : Char → Bool) (l r : Str) (h : ∀ c ∈ l, p c = true) :
    (l ++ r).dropWhile p = r.dropWhile p := by
  induction l with
  | nil => rfl
  | cons c l' ih =>
    rw [List.cons_append, List.dropWhile_cons, h c (List.mem_cons_self _ _)]
    exact ih (fun x hx => h x (List.mem_cons_of_mem c hx))

theorem wfName_parts (n : Str) (hn : wfName n = true) :
    n ≠ [] ∧ ∀ c ∈ n, isWordChar c = true := by
  rw [wfName, Bool.and_eq_true] at hn
  refine ⟨by simpa using hn.1, ?_⟩
  have hall := hn.2
  rw [List.all_eq_true] at hall
  exact hall

theorem wfName_all_ne_rb (n : Str) (hn : wfName n = true) :
    ∀ c ∈ n, ((c ≠ rbChar : Bool)) = true := by
  intro c hc
  exact decide_eq_true ((isWordChar_ne_braces c ((wfName_parts n hn).2 c hc)).2)

theorem drop_after_name (n rr : Str) :
    (n ++ rbChar :: rr).drop (n.length + 1) = rr := by
  have h1 : (n ++ rbChar :: rr).drop n.length = rbChar :: rr := List.drop_left n _
  have h2 := List.drop_drop 1 n.length (n ++ rbChar :: rr)
  rw [h1] at h2
  rw [← h2, List.drop_succ_cons, List.drop_zero]

/-- The placeholder scan of a rendered well-formed template is exactly its
placeholder-name list. -/
theorem scanPH_render (segs : List Seg) (hw : ∀ sg ∈ segs, wfSeg sg = true) :
    scanPH (render segs) = phNames segs := by
  show scanGo (render segs) 0 = phNames segs
  induction segs with
  | nil => rfl
  | cons sg rest ih =>
    have hsg := hw sg (List.mem_cons_self _ _)
    have hrest := fun x hx => hw x (List.mem_cons_of_mem sg hx)
    cases sg with
    | lit c =>
      have hc : ¬ (c = lbChar) := by
        intro h
        rw [wfSeg, h] at hsg
        simp at hsg
      show scanGo (c :: render rest) 0 = phNames (Seg.lit c :: rest)
      rw [scanGo, if_neg hc]
      exact ih hrest
    | ph n =>
      have hn : wfName n = true := hsg
      have hne : n ≠ [] := (wfName_parts n hn).1
      have hr : render (Seg.ph n :: rest) = lbChar :: (n ++ rbChar :: render rest) := by
        show phStr n ++ render rest = _
        rw [phStr]
        simp
      rw [hr, scanGo, if_pos rfl]
      have htake : (n ++ rbChar :: render rest).takeWhile (· ≠ rbChar) = n := by
        rw [takeWhile_append_all _ _ _ (wfName_all_ne_rb n hn), List.takeWhile_cons]
        simp
      have hdrop : (n ++ rbChar :: render rest).dropWhile (· ≠ rbChar) =
          rbChar :: render rest := by
        rw [dropWhile_append_all _ _ _ (wfName_all_ne_rb n hn), List.dropWhile_cons]
        simp
      rw [htake, hdrop]
      rw [if_pos ⟨hne, by simp⟩]
      rw [scanGo_skip, List.drop_left n, scanGo]
      have hrb : ¬ (rbChar = lbChar) := by decide
      rw [if_neg hrb]
      show n :: scanGo (render rest) 0 = phNames (Seg.ph n :: rest)
      rw [ih hrest]
      rfl

theorem render_append (a b : List Seg) : render (a ++ b) = render a ++ render b := by
  induction a with
  | nil => rfl
  | cons sg a' ih =>
    show renderSeg sg ++ render (a' ++ b) = (renderSeg sg ++ render a') ++ render b
    rw [ih, List.append_assoc]

theorem render_lits (v : Str) : render (v.map Seg.lit) = v := by
  induction v with
  | nil => rfl
  | cons c v' ih =>
    show [c] ++ render (v'.map Seg.lit) = c :: v'
    rw [ih]
    rfl

theorem cleanVal_all (v : Str) (hv : cleanVal v = true) :
    ∀ c ∈ v, c ≠ lbChar ∧ c ≠ rbChar := by
  intro c hc
  rw [cleanVal, List.all_eq_true] at hv
  have := hv c hc
  constructor <;> rintro rfl <;> simp_all

theorem repGo_walk (pat repl : Str) (t : Str) (hp : pat = lbChar :: t)
    (l r : Str) (hl : ∀ c ∈ l, c ≠ lbChar) :
    repGo pat repl (l ++ r) 0 = l ++ repGo pat repl r 0 := by
  induction l with
  | nil => rfl
  | cons c l' ih =>
    have hc : c ≠ lbChar := hl c (List.mem_cons_self _ _)
    have hpre : ¬ (pat.isPrefixOf (c :: (l' ++ r)) = true ∧ pat ≠ []) := by
      rintro ⟨h1, _⟩
      rw [hp, List.isPrefixOf, Bool.and_eq_true, beq_iff_eq] at h1
      exact hc h1.1.symm
    rw [List.cons_append, repGo, if_neg hpre, ih (fun x hx => hl x (List.mem_cons_of_mem c hx))]
    rfl

theorem containsStr_cons (p : Str) (c : Char) (s : Str) :
    containsStr p (c :: s) = (p.isPrefixOf (c :: s) || containsStr p s) := by
  rw [containsStr, containsStr, List.tails]
  rw [List.any_cons]

theorem containsStr_walk (p : Str) (t : Str) (hp : p = lbChar :: t)
    (l r : Str) (hl : ∀ c ∈ l, c ≠ lbChar) :
    containsStr p (l ++ r) = containsStr p r := by
  induction l with
  | nil => rfl
  | cons c l' ih =>
    have hc : c ≠ lbChar := hl c (List.mem_cons_self _ _)
    have hpre : p.isPrefixOf (c :: (l' ++ r)) = false := by
      rw [hp]
      show (lbChar :: t).isPrefixOf (c :: (l' ++ r)) = false
      rw [List.isPrefixOf]
      have : (lbChar == c) = false := by
        rw [beq_eq_false_iff_ne]
        exact fun h => hc h.symm
      rw [this]
      rfl
    rw [List.cons_append, containsStr_cons, hpre]
    simp only [Bool.false_or]
    exact ih (fun x hx => hl x (List.mem_cons_of_mem c hx))

theorem wordname_prefix_eq (n : Str) :
    ∀ (m rr : Str), (∀ c ∈ n, isWordChar c = true) → (∀ c ∈ m, isWordChar c = true) →
    (n ++ [rbChar]).isPrefixOf (m ++ rbChar :: rr) = true → n = m := by
  induction n with
  | nil =>
    intro m rr _ hm hpre
    cases m with
    | nil => rfl
    | cons b m' =>
      rw [List.nil_append] at hpre
      rw [List.cons_append, List.isPrefixOf] at hpre
      have hb : b ≠ rbChar :=
        (isWordChar_ne_braces b (hm b (List.mem_cons_self _ _))).2
      rw [show (rbChar == b) = false from beq_eq_false_iff_ne.mpr (fun h => hb h.symm)] at hpre
      exact absurd hpre (by simp)
  | cons a n' ih =>
    intro m rr hn hm hpre
    cases m with
    | nil =>
      rw [List.nil_append] at hpre
      rw [List.cons_append, List.isPrefixOf] at hpre
      have ha : a ≠ rbChar :=
        (isWordChar_ne_braces a (hn a (List.mem_cons_self _ _))).2
      rw [show (a == rbChar) = false from beq_eq_false_iff_ne.mpr ha] at hpre
      exact absurd hpre (by simp)
    | cons b m' =>
      rw [List.cons_append, List.cons_append, List.isPrefixOf, Bool.and_eq_true,
        beq_iff_eq] at hpre
      rw [hpre.1, ih m' rr (fun c hc => hn c (List.mem_cons_of_mem a hc))
        (fun c hc => hm c (List.mem_cons_of_mem b hc)) hpre.2]

/-- Replacing `{n}` in a rendered well-formed template is substitution at
the segment level. -/
theorem replaceAll_render (segs : List Seg) (n v : Str)
    (hw : ∀ sg ∈ segs, wfSeg sg = true) (hn : wfName n = true) :
    replaceAllStr (phStr n) v (render segs) = render (substSeg n v segs) := by
  induction segs with
  | nil => rfl
  | cons sg rest ih =>
    have hsg := hw sg (List.mem_cons_self _ _)
    have hrest := fun x hx => hw x (List.mem_cons_of_mem sg hx)
    cases sg with
    | lit c =>
      have hc : c ≠ lbChar := by
        intro h
        rw [wfSeg, h] at hsg
        simp at hsg
      show repGo (phStr n) v (c :: render rest) 0 = render (Seg.lit c :: substSeg n v rest)
      have hpre : ¬ ((phStr n).isPrefixOf (c :: render rest) = true ∧ phStr n ≠ []) := by
        rintro ⟨h1, _⟩
        rw [phStr, List.isPrefixOf, Bool.and_eq_true, beq_iff_eq] at h1
        exact hc h1.1.symm
      rw [repGo, if_neg hpre]
      show c :: replaceAllStr (phStr n) v (render rest) = _
      rw [ih hrest]
      rfl
    | ph m =>
      have hm : wfName m = true := hsg
      by_cases hmn : m = n
      · subst hmn
        have hr : render (Seg.ph m :: rest) = lbChar :: ((m ++ [rbChar]) ++ render rest) := by
          show phStr m ++ render rest = _
          rw [phStr]
          rfl
        have hpre : (phStr m).isPrefixOf (lbChar :: ((m ++ [rbChar]) ++ render rest)) = true := by
          rw [List.isPrefixOf_iff_prefix, phStr]
          exact ⟨render rest, by simp⟩
        have hsub : substSeg m v (Seg.ph m :: rest) = v.map Seg.lit ++ substSeg m v rest := by
          rw [substSeg, if_pos rfl]
        show repGo (phStr m) v (render (Seg.ph m :: rest)) 0 = _
        rw [hr, repGo, if_pos ⟨hpre, by simp [phStr]⟩]
        have hlen : (phStr m).length - 1 = m.length + 1 := by
          simp [phStr]
        rw [hlen, repGo_skip]
        have hdrop2 : ((m ++ [rbChar]) ++ render rest).drop (m.length + 1) = render rest := by
          rw [List.append_assoc]
          exact drop_after_name m (render rest)
        rw [hdrop2]
        show v ++ replaceAllStr (phStr m) v (render rest) = _
        rw [ih hrest, hsub, render_append, render_lits]
      · have hr : render (Seg.ph m :: rest) = lbChar :: ((m ++ [rbChar]) ++ render rest) := by
          show phStr m ++ render rest = _
          rw [phStr]
          rfl
        have hpre : ¬ ((phStr n).isPrefixOf (lbChar :: ((m ++ [rbChar]) ++ render rest)) = true ∧
            phStr n ≠ []) := by
          rintro ⟨h1, _⟩
          rw [phStr, List.isPrefixOf, Bool.and_eq_true] at h1
          have h2 := h1.2
          rw [List.append_assoc] at h2
          have := wordname_prefix_eq n m (render rest)
            (wfName_parts n hn).2 (wfName_parts m hm).2 (by simpa using h2)
          exact hmn this.symm
        have hsub : substSeg n v (Seg.ph m :: rest) = Seg.ph m :: substSeg n v rest := by
          rw [substSeg, if_neg hmn]
          rfl
        show repGo (phStr n) v (render (Seg.ph m :: rest)) 0 = _
        rw [hr, repGo, if_neg hpre]
        have hwalk := repGo_walk (phStr n) v (n ++ [rbChar]) (by rw [phStr])
          (m ++ [rbChar]) (render rest) ?_
        · rw [hwalk]
          show lbChar :: ((m ++ [rbChar]) ++ replaceAllStr (phStr n) v (render rest)) = _
          rw [ih hrest, hsub]
          show _ = phStr m ++ render (substSeg n v rest)
          rw [phStr]
          simp
        · intro c hc
          rcases List.mem_append.mp hc with hcm | hcr
          · exact (isWordChar_ne_braces c ((wfName_parts m hm).2 c hcm)).1
          · rw [List.mem_singleton] at hcr
            subst hcr
            decide

/-- A rendered well-formed template contains the text `{n}` exactly when the
placeholder `n` is one of its segments. -/
theorem containsStr_render (segs : List Seg) (n : Str)
    (hw : ∀ sg ∈ segs, wfSeg sg = true) (hn : wfName n = true) :
    containsStr (phStr n) (render segs) = true ↔ Seg.ph n ∈ segs := by
  induction segs with
  | nil =>
    constructor
    · intro h
      rw [show render [] = [] from rfl] at h
      rw [containsStr] at h
      simp [List.tails, phStr, List.isPrefixOf] at h
    · intro h
      simp at h
  | cons sg rest ih =>
    have hsg := hw sg (List.mem_cons_self _ _)
    have hrest := fun x hx => hw x (List.mem_cons_of_mem sg hx)
    cases sg with
    | lit c =>
      have hc : c ≠ lbChar := by
        intro h
        rw [wfSeg, h] at hsg
        simp at hsg
      have hstep : containsStr (phStr n) (render (Seg.lit c :: rest)) =
          containsStr (phStr n) (render rest) := by
        show containsStr (phStr n) (c :: render rest) = _
        rw [containsStr_cons]
        have hpre : (phStr n).isPrefixOf (c :: render rest) = false := by
          rw [phStr, List.isPrefixOf]
          rw [show (lbChar == c) = false from
            beq_eq_false_iff_ne.mpr (fun h => hc h.symm)]
          rfl
        rw [hpre]
        simp
      rw [hstep, ih hrest]
      constructor
      · exact fun h => List.mem_cons_of_mem _ h
      · intro h
        rcases List.mem_cons.mp h with h | h
        · exact absurd h (by simp)
        · exact h
    | ph m =>
      have hm : wfName m = true := hsg
      have hr : render (Seg.ph m :: rest) = lbChar :: ((m ++ [rbChar]) ++ render rest) := by
        show phStr m ++ render rest = _
        rw [phStr]
        rfl
      have hwalk := containsStr_walk (phStr n) (n ++ [rbChar]) (by rw [phStr])
        (m ++ [rbChar]) (render rest) ?_
      swap
      · intro c hc
        rcases List.mem_append.mp hc with hcm | hcr
        · exact (isWordChar_ne_braces c ((wfName_parts m hm).2 c hcm)).1
        · rw [List.mem_singleton] at hcr
          subst hcr
          decide
      rw [hr, containsStr_cons]
      by_cases hmn : m = n
      · subst hmn
        have hpre : (phStr m).isPrefixOf (lbChar :: ((m ++ [rbChar]) ++ render rest)) = true := by
          rw [List.isPrefixOf_iff_prefix, phStr]
          exact ⟨render rest, by simp⟩
        rw [hpre]
        simp
      · have hpre : (phStr n).isPrefixOf (lbChar :: ((m ++ [rbChar]) ++ render rest)) = false := by
          rw [phStr, List.isPrefixOf]
          rw [show (lbChar == lbChar) = true from beq_self_eq_true _]
          rw [Bool.true_and]
          by_contra hcon
          rw [Bool.not_eq_false] at hcon
          rw [List.append_assoc] at hcon
          have := wordname_prefix_eq n m (render rest)
            (wfName_parts n hn).2 (wfName_parts m hm).2 (by simpa using hcon)
          exact hmn this.symm
        rw [hpre, hwalk]
        simp only [Bool.false_or]
        rw [ih hrest]
        constructor
        · exact fun h => List.mem_cons_of_mem _ h
        · intro h
          rcases List.mem_cons.mp h with h | h
          · exact absurd (Seg.ph.inj h) (fun he => hmn he.symm)
          · exact h

theorem substSeg_wf (segs : List Seg) (n v : Str)
    (hw : ∀ sg ∈ segs, wfSeg sg = true) (hv : cleanVal v = true) :
    ∀ sg ∈ substSeg n v segs, wfSeg sg = true := by
  induction segs with
  | nil => intro sg h; simp [substSeg] at h
  | cons x rest ih =>
    have hx := hw x (List.mem_cons_self _ _)
    have hrest := fun y hy => hw y (List.mem_cons_of_mem x hy)
    intro sg hsg
    cases x with
    | lit c =>
      rcases List.mem_cons.mp hsg with rfl | h
      · exact hx
      · exact ih hrest sg h
    | ph m =>
      rw [substSeg] at hsg
      rcases List.mem_append.mp hsg with h | h
      · by_cases hmn : m = n
        · rw [if_pos hmn] at h
          rw [List.mem_map] at h
          obtain ⟨c, hc, rfl⟩ := h
          have := cleanVal_all v hv c hc
          rw [wfSeg]
          simp [this.1, this.2]
        · rw [if_neg hmn, List.mem_singleton] at h
          subst h
          exact hx
      · exact ih hrest sg h

theorem substSeg_not_mem (segs : List Seg) (n v : Str) :
    Seg.ph n ∉ substSeg n v segs := by
  induction segs with
  | nil => simp [substSeg]
  | cons x rest ih =>
    intro h
    cases x with
    | lit c =>
      rcases List.mem_cons.mp h with h | h
      · exact absurd h (by simp)
      · exact ih h
    | ph m =>
      rw [substSeg] at h
      rcases List.mem_append.mp h with h | h
      · by_cases hmn : m = n
        · rw [if_pos hmn, List.mem_map] at h
          obtain ⟨c, _, hc⟩ := h
          exact Seg.noConfusion hc
        · rw [if_neg hmn, List.mem_singleton] at h
          exact hmn (Seg.ph.inj h).symm
      · exact ih h

theorem substSeg_pres_not_mem (segs : List Seg) (n m v : Str)
    (h : Seg.ph n ∉ segs) : Seg.ph n ∉ substSeg m v segs := by
  induction segs with
  | nil => simp [substSeg]
  | cons x rest ih =>
    have hx : Seg.ph n ≠ x := fun he => h (he ▸ List.mem_cons_self _ _)
    have hrest : Seg.ph n ∉ rest := fun hr => h (List.mem_cons_of_mem x hr)
    intro hc
    cases x with
    | lit c =>
      rcases List.mem_cons.mp hc with hc | hc
      · exact absurd hc (by simp)
      · exact ih hrest hc
    | ph k =>
      rw [substSeg] at hc
      rcases List.mem_append.mp hc with hc | hc
      · by_cases hkm : k = m
        · rw [if_pos hkm, List.mem_map] at hc
          obtain ⟨c, _, hcc⟩ := hc
          exact Seg.noConfusion hcc
        · rw [if_neg hkm, List.mem_singleton] at hc
          exact hx hc
      · exact ih hrest hc

theorem substSeg_mem_ne (segs : List Seg) (n m v : Str) (hnm : n ≠ m)
    (h : Seg.ph n ∈ segs) : Seg.ph n ∈ substSeg m v segs := by
  induction segs with
  | nil => simp at h
  | cons x rest ih =>
    rcases List.mem_cons.mp h with hx | hx
    · rw [← hx, substSeg, if_neg (fun he => hnm he)]
      exact List.mem_append.mpr (Or.inl (List.mem_singleton.mpr rfl))
    · cases x with
      | lit c => exact List.mem_cons_of_mem _ (ih hx)
      | ph k =>
        rw [substSeg]
        exact List.mem_append.mpr (Or.inr (ih hx))

theorem mem_phNames (segs : List Seg) (n : Str) (h : Seg.ph n ∈ segs) :
    n ∈ phNames segs := by
  induction segs with
  | nil => simp at h
  | cons x rest ih =>
    rcases List.mem_cons.mp h with hx | hx
    · rw [← hx, phNames]
      exact List.mem_cons_self _ _
    · cases x with
      | lit c => exact ih hx
      | ph m => exact List.mem_cons_of_mem _ (ih hx)

theorem phNames_wf (segs : List Seg) (hw : ∀ sg ∈ segs, wfSeg sg = true) :
    ∀ x ∈ phNames segs, wfName x = true := by
  induction segs with
  | nil => intro x h; simp [phNames] at h
  | cons sg rest ih =>
    have hsg := hw sg (List.mem_cons_self _ _)
    have hrest := fun y hy => hw y (List.mem_cons_of_mem sg hy)
    intro x hx
    cases sg with
    | lit c => exact ih hrest x hx
    | ph m =>
      rcases List.mem_cons.mp hx with rfl | hx
      · exact hsg
      · exact ih hrest x hx

theorem lookup_mem (l : List (Str × Str)) (k v : Str) (h : l.lookup k = some v) :
    (k, v) ∈ l := by
  induction l with
  | nil => simp [List.lookup] at h
  | cons p rest ih =>
    obtain ⟨a, b⟩ := p
    rw [List.lookup] at h
    by_cases hk : k == a
    · rw [hk] at h
      have hv := Option.some.inj h
      have hk2 : k = a := beq_iff_eq.mp hk
      subst hk2
      rw [← hv]
      exact List.mem_cons_self _ _
    · rw [Bool.not_eq_true] at hk
      rw [hk] at h
      exact List.mem_cons_of_mem _ (ih h)

theorem lookup2_clean (data defaults : List (Str × Str)) (name v : Str)
    (hd : ∀ p ∈ data ++ defaults, cleanVal p.2 = true)
    (hl : lookup2 data defaults name = some v) : cleanVal v = true := by
  rw [lookup2] at hl
  cases hdl : data.lookup name with
  | some w =>
    rw [hdl] at hl
    have := Option.some.inj hl
    subst this
    exact hd (name, w) (List.mem_append.mpr (Or.inl (lookup_mem data name w hdl)))
  | none =>
    rw [hdl] at hl
    exact hd (name, v) (List.mem_append.mpr (Or.inr (lookup_mem defaults name v hl)))

theorem stepSeg_wf (data defaults : List (Str × Str)) (segs : List Seg) (x : Str)
    (hw : ∀ sg ∈ segs, wfSeg sg = true)
    (hd : ∀ p ∈ data ++ defaults, cleanVal p.2 = true) :
    ∀ sg ∈ stepSeg data defaults segs x, wfSeg sg = true := by
  rw [stepSeg]
  cases hlx : lookup2 data defaults x with
  | some v => exact substSeg_wf segs x v hw (lookup2_clean data defaults x v hd hlx)
  | none => exact hw

theorem foldl_fill_render (data defaults : List (Str × Str)) (ns : List Str)
    (segs : List Seg)
    (hw : ∀ sg ∈ segs, wfSeg sg = true) (hns : ∀ x ∈ ns, wfName x = true)
    (hd : ∀ p ∈ data ++ defaults, cleanVal p.2 = true) :
    ns.foldl (fun acc name =>
      match lookup2 data defaults name with
      | some v => replaceAllStr (phStr name) v acc
      | none => acc) (render segs) =
    render (ns.foldl (stepSeg data defaults) segs) := by
  induction ns generalizing segs with
  | nil => rfl
  | cons x ns' ih =>
    have hx : wfName x = true := hns x (List.mem_cons_self _ _)
    have hns' : ∀ y ∈ ns', wfName y = true :=
      fun y hy => hns y (List.mem_cons_of_mem x hy)
    have hstep : (match lookup2 data defaults x with
        | some v => replaceAllStr (phStr x) v (render segs)
        | none => render segs) = render (stepSeg data defaults segs x) := by
      rw [stepSeg]
      cases hlx : lookup2 data defaults x with
      | some v => exact replaceAll_render segs x v hw hx
      | none => rfl
    rw [List.foldl_cons, List.foldl_cons, hstep]
    exact ih (stepSeg data defaults segs x) (stepSeg_wf data defaults segs x hw hd) hns'

theorem foldl_stepSeg_wf (data defaults : List (Str × Str)) (ns : List Str)
    (segs : List Seg)
    (hw : ∀ sg ∈ segs, wfSeg sg = true)
    (hd : ∀ p ∈ data ++ defaults, cleanVal p.2 = true) :
    ∀ sg ∈ ns.foldl (stepSeg data defaults) segs, wfSeg sg = true := by
  induction ns generalizing segs with
  | nil => exact hw
  | cons x ns' ih =>
    rw [List.foldl_cons]
    exact ih (stepSeg data defaults segs x) (stepSeg_wf data defaults segs x hw hd)

theorem foldl_stepSeg_pres_not_mem (data defaults : List (Str × Str)) (n : Str)
    (ns : List Str) (segs : List Seg) (h : Seg.ph n ∉ segs) :
    Seg.ph n ∉ ns.foldl (stepSeg data defaults) segs := by
  induction ns generalizing segs with
  | nil => exact h
  | cons x ns' ih =>
    rw [List.foldl_cons]
    refine ih (stepSeg data defaults segs x) ?_
    rw [stepSeg]
    cases lookup2 data defaults x with
    | some v => exact substSeg_pres_not_mem segs n x v h
    | none => exact h

theorem foldl_stepSeg_removes (data defaults : List (Str × Str)) (n : Str)
    (ns : List Str) (segs : List Seg)
    (hv : (lookup2 data defaults n).isSome = true) (hn : n ∈ ns) :
    Seg.ph n ∉ ns.foldl (stepSeg data defaults) segs := by
  induction ns generalizing segs with
  | nil => simp at hn
  | cons x ns' ih =>
    rw [List.foldl_cons]
    by_cases hxn : x = n
    · subst hxn
      refine foldl_stepSeg_pres_not_mem data defaults x ns' _ ?_
      rw [stepSeg]
      obtain ⟨v, hlv⟩ := Option.isSome_iff_exists.mp hv
      rw [hlv]
      exact substSeg_not_mem segs x v
    · have hmem : n ∈ ns' := by
        rcases List.mem_cons.mp hn with h | h
        · exact absurd h.symm hxn
        · exact h
      exact ih (stepSeg data defaults segs x) hmem

theorem foldl_stepSeg_keeps (data defaults : List (Str × Str)) (n : Str)
    (ns : List Str) (segs : List Seg)
    (h0 : lookup2 data defaults n = none) (hm : Seg.ph n ∈ segs) :
    Seg.ph n ∈ ns.foldl (stepSeg data defaults) segs := by
  induction ns generalizing segs with
  | nil => exact hm
  | cons x ns' ih =>
    rw [List.foldl_cons]
    refine ih (stepSeg data defaults segs x) ?_
    rw [stepSeg]
    cases hlx : lookup2 data defaults x with
    | some v =>
      have hxn : n ≠ x := by
        rintro rfl
        rw [h0] at hlx
        exact Option.noConfusion hlx
      exact substSeg_mem_ne segs n x v hxn hm
    | none => exact hm

/-- C4 (amended): for every template made of brace-free literal text and
well-formed `{name}` placeholders (nonempty word-character names), and for
data/default values containing no brace and no `$`, `fillTemplate` resolves
every placeholder whose name is bound in the data or the defaults (the data
value taking priority, and no `{name}` occurrence of a bound template name
remains in the output), leaves every unbound placeholder literally in the
output, and never fails. (The value restriction is necessary: a bound value
that itself contains placeholder text re-creates an unresolved placeholder —
see the counterexample; a name or literal containing a brace can likewise
destroy or fabricate overlapping placeholder occurrences.) -/
theorem fillTemplate_resolves (segs : List Seg) (data defaults : List (Str × Str))
    (hw : ∀ sg ∈ segs, wfSeg sg = true)
    (hd : ∀ p ∈ data ++ defaults, cleanVal p.2 = true)
    (n : Str) (hn : Seg.ph n ∈ segs) :
    ((lookup2 data defaults n).isSome = true →
      containsStr (phStr n) (fillTemplate (render segs) data defaults) = false) ∧
    (lookup2 data defaults n = none →
      containsStr (phStr n) (fillTemplate (render segs) data defaults) = true) := by
  have hwn : wfName n = true := by
    have := hw (Seg.ph n) hn
    exact this
  have hfill : fillTemplate (render segs) data defaults =
      render ((phNames segs).foldl (stepSeg data defaults) segs) := by
    rw [fillTemplate, scanPH_render segs hw]
    exact foldl_fill_render data defaults (phNames segs) segs hw (phNames_wf segs hw) hd
  have hwfF : ∀ sg ∈ (phNames segs).foldl (stepSeg data defaults) segs, wfSeg sg = true :=
    foldl_stepSeg_wf data defaults (phNames segs) segs hw hd
  constructor
  · intro hsome
    rw [hfill]
    have hnot : Seg.ph n ∉ (phNames segs).foldl (stepSeg data defaults) segs :=
      foldl_stepSeg_removes data defaults n (phNames segs) segs hsome
        (mem_phNames segs n hn)
    rw [← Bool.not_eq_true]
    intro hcon
    exact hnot ((containsStr_render _ n hwfF hwn).mp hcon)
  · intro hnone
    rw [hfill]
    exact (containsStr_render _ n hwfF hwn).mpr
      (foldl_stepSeg_keeps data defaults n (phNames segs) segs hnone hn)

/-- Counterexample to C4 as stated: the template `{a}` with data `a ↦ "{a}"`
(the bound value itself is placeholder text) fills to `{a}` — the output
still contains the placeholder `{a}` although `a` exists in the data, so
"never leaves a placeholder unresolved when the name exists in the data"
fails without a restriction on the substituted values. -/
theorem fillTemplate_unresolved_cex :
    (lookup2 [("a".toList, phStr ("a".toList))] [] ("a".toList)).isSome = true ∧
    fillTemplate (phStr ("a".toList)) [("a".toList, phStr ("a".toList))] [] =
      phStr ("a".toList) ∧
    containsStr (phStr ("a".toList))
      (fillTemplate (phStr ("a".toList)) [("a".toList, phStr ("a".toList))] []) = true := by
  decide

/-- The template `{a} {b}` as segments. -/
def demoSegs : List Seg := [Seg.ph ("a".toList), Seg.lit ' ', Seg.ph ("b".toList)]

/-- Data binding `a` to `x` (and nothing else). -/
def demoData : List (Str × Str) := [("a".toList, "x".toList)]

/-- Witness for C4: on the template `{a} {b}` with data `a ↦ x`, the bound
placeholder `{a}` is resolved away and the unbound `{b}` remains literally. -/
theorem fillTemplate_resolves_witness :
    (∀ sg ∈ demoSegs, wfSeg sg = true) ∧
    (∀ p ∈ demoData ++ ([] : List (Str × Str)), cleanVal p.2 = true) ∧
    Seg.ph ("a".toList) ∈ demoSegs ∧ Seg.ph ("b".toList) ∈ demoSegs ∧
    containsStr (phStr ("a".toList)) (fillTemplate (render demoSegs) demoData []) = false ∧
    containsStr (phStr ("b".toList)) (fillTemplate (render demoSegs) demoData []) = true := by
  refine ⟨by decide, by decide, by decide, by decide, ?_, ?_⟩
  · exact (fillTemplate_resolves demoSegs demoData [] (by decide) (by decide)
      ("a".toList) (by decide)).1 (by decide)
  · exact (fillTemplate_resolves demoSegs demoData [] (by decide) (by decide)
      ("b".toList) (by decide)).2 (by decide)
